import Mathlib

/-!
Verification of the opencode usage-tracker plugin (src/usage-tracker.ts).

The development shallowly embeds the plugin's data model and logic:
host-language strings become `List Char`, JS numbers used for money and
rates become `ℚ` (exact arithmetic; the host's binary floating point is
idealised), token counts become `ℕ`, nullable numbers become `Option ℚ`,
and the SQLite `token_usage` table becomes a list of records in insertion
order.  `INSERT OR IGNORE` together with the `id` primary key and the
`message_id` UNIQUE constraint becomes a conditional append.  The SQLite
`LIKE` operator (used for the model filter) is embedded with its default
collation, which folds ASCII letters to one case; `ORDER BY created_at`
uses the BINARY text collation, i.e. code-point lexicographic order.
Wall-clock time enters the event handler as explicit parameters, and the
success of an individual database insert is an explicit boolean input so
that the write-failure path can be analysed.  Display-only formatting
(`formatTokens`, `formatCost`, toast message texts, report layout) and the
`startTime` field of the in-memory session stats (used only to render a
duration) are outside the embedding; no claim refers to them.
-/

namespace UsageTracker

/-- Host-language strings, embedded as lists of characters. -/
abbrev Str := List Char

/-- Coerce a Lean string literal into the embedding's string type. -/
def str (s : String) : Str := s.toList

/-- Rate card for one model: currency per one million tokens, four
categories (interface `ModelPricing`). -/
structure ModelPricing where
  input : ℚ
  output : ℚ
  cacheRead : ℚ
  cacheWrite : ℚ
deriving DecidableEq, Repr

/-- A row of the `token_usage` table (interface `TokenUsageRecord`).
`cost` is `REAL` and nullable, hence `Option ℚ`. -/
structure TokenUsageRecord where
  id : Str
  session_id : Str
  message_id : Str
  model : Str
  provider : Str
  input_tokens : ℕ
  output_tokens : ℕ
  cache_read_tokens : ℕ
  cache_write_tokens : ℕ
  cost : Option ℚ
  created_at : Str
  machine_id : Str
deriving DecidableEq, Repr

/-- Token tuple extracted from a message (`tokens` object built in the
event handler, defaults already applied). -/
structure TokenCounts where
  input : ℕ
  output : ℕ
  cacheRead : ℕ
  cacheWrite : ℕ
deriving DecidableEq, Repr

/-- Embeds `s.split(c)` of the host language: split a string at every
occurrence of the character `c`; the result is never empty. -/
def splitOnChar (c : Char) : Str → List Str
  | [] => [[]]
  | x :: xs =>
    if x = c then [] :: splitOnChar c xs
    else
      match splitOnChar c xs with
      | [] => [[x]]
      | h :: t => (x :: h) :: t

/-- Embeds `model.split("/").pop()`: the segment after the last slash
(the whole string when no slash occurs). -/
def lastSegment (s : Str) : Str := (splitOnChar '/' s).getLastD []

/-- Embeds `model.split("/")[0] ?? "unknown"` (event handler, provider
derivation).  `split` never returns an empty array, so the `?? "unknown"`
default is kept but can only fire on the impossible empty-split case. -/
def providerOf (model : Str) : Str := (splitOnChar '/' model).headD (str "unknown")

/-- Character-by-character test that `pat` begins `s` (helper for the
substring and suffix tests below). -/
def leadMatch : Str → Str → Bool
  | [], _ => true
  | _ :: _, [] => false
  | a :: as, b :: bs => (a == b) && leadMatch as bs

/-- Test that `pat` occurs contiguously inside `s` (exact characters). -/
def subMatch (pat : Str) : Str → Bool
  | [] => leadMatch pat []
  | c :: cs => leadMatch pat (c :: cs) || subMatch pat cs

/-- Embeds `s.endsWith(suf)` of the host language: `s` equals `suf` or a
tail of `s` does. -/
def tailMatch (suf : Str) : Str → Bool
  | [] => ([] : Str) == suf
  | c :: cs => ((c :: cs : Str) == suf) || tailMatch suf cs

/-- SQLite's default `LIKE` collation folds the ASCII letters `A`–`Z` to
lower case and leaves every other character unchanged. -/
def foldAsciiLower (c : Char) : Char :=
  if 'A' ≤ c ∧ c ≤ 'Z' then Char.ofNat (c.toNat + 32) else c

/-- Apply the ASCII case folding to a whole string. -/
def lowered (s : Str) : Str := s.map foldAsciiLower

/-- All suffixes of a string, longest first (including itself and `[]`). -/
def suffixes : Str → List Str
  | [] => [[]]
  | c :: cs => (c :: cs) :: suffixes cs

/-- SQLite `LIKE` pattern matching with the default collation: `%`
matches any run of characters (tried as "the rest is some suffix"),
`_` matches one character, every other pattern character matches up to
ASCII case. -/
def likeMatches : Str → Str → Bool
  | [], t => t.isEmpty
  | p :: ps, t =>
    if p = '%' then (suffixes t).any (fun s => likeMatches ps s)
    else
      match t with
      | [] => false
      | c :: cs =>
        if p = '_' then likeMatches ps cs
        else (foldAsciiLower p == foldAsciiLower c) && likeMatches ps cs

/-- The pattern `%f%` built by `getAggregateStats` around a model filter. -/
def likePattern (f : Str) : Str := '%' :: (f ++ ['%'])

/-- Code-point lexicographic strict order on strings: SQLite's BINARY
collation on `TEXT`, used by the `created_at` comparisons and ordering. -/
def strLt : Str → Str → Bool
  | [], [] => false
  | [], _ :: _ => true
  | _ :: _, [] => false
  | a :: as, b :: bs => if a = b then strLt as bs else decide (a < b)

/-- Non-strict variant of `strLt`, embedding SQL `<=` on `TEXT`. -/
def strLe (a b : Str) : Bool := strLt a b || a == b

/-- A pricing table in insertion order: a JS object keyed by model
identifier, embedded as an association list. -/
abbrev PricingTable := List (Str × ModelPricing)

/-- First-match association-list lookup: JS property access by key. -/
def lookupAssoc {β : Type} (m : List (Str × β)) (k : Str) : Option β :=
  (m.find? (fun kv => kv.1 == k)).map (fun kv => kv.2)

/-- Association-list update embedding the `if (!m[k]) m[k] = d; mutate m[k]`
idiom: an existing key is updated in place, a new key is appended. -/
def updateAssoc {β : Type} (m : List (Str × β)) (k : Str) (d : β) (f : β → β) :
    List (Str × β) :=
  if (m.find? (fun kv => kv.1 == k)).isSome then
    m.map (fun kv => if kv.1 == k then (kv.1, f kv.2) else kv)
  else m ++ [(k, f d)]

/-- Embeds the object spread `{...defaults, ...overrides}` from
`getConfig`: keys of `defaults` keep their positions but take the
override's value on collision, and override keys absent from `defaults`
are appended in their own order. -/
def mergePricing (defaults overrides : PricingTable) : PricingTable :=
  defaults.map (fun kv => (kv.1, (lookupAssoc overrides kv.1).getD kv.2)) ++
    overrides.filter (fun kv => (lookupAssoc defaults kv.1).isNone)

/-- The built-in `DEFAULT_PRICING` table (per million tokens). -/
def DEFAULT_PRICING : PricingTable :=
  [(str "anthropic/claude-sonnet-4-5", ⟨3, 15, 3/10, 375/100⟩),
   (str "anthropic/claude-opus-4-5", ⟨5, 25, 1/2, 625/100⟩),
   (str "openai/gpt-5", ⟨125/100, 10, 125/1000, 0⟩),
   (str "openai/gpt-5.1", ⟨125/100, 10, 125/1000, 0⟩),
   (str "openai/gpt-5.2", ⟨175/100, 14, 175/1000, 0⟩),
   (str "openai/gpt-5-mini", ⟨25/100, 2, 25/1000, 0⟩)]

/-- The merged pricing table a running plugin uses: `getConfig` spreads
the configured overrides over `DEFAULT_PRICING`. -/
def configPricing (overrides : PricingTable) : PricingTable :=
  mergePricing DEFAULT_PRICING overrides

/-- Embeds `getPricing`: exact lookup first, then a scan for the first
entry whose key ends in `"/" + modelName` or equals `modelName`, where
`modelName` is the incoming model stripped of its provider prefix. -/
def getPricing (model : Str) (pricing : PricingTable) : Option ModelPricing :=
  match lookupAssoc pricing model with
  | some p => some p
  | none =>
    let modelName := lastSegment model
    (pricing.find? (fun kv =>
      tailMatch ('/' :: modelName) kv.1 || kv.1 == modelName)).map (fun kv => kv.2)

/-- Embeds `calculateCost`: a resolved rate card always wins; otherwise a
strictly positive host-supplied cost is used verbatim; otherwise null. -/
def calculateCost (tokens : TokenCounts) (pricing : Option ModelPricing)
    (opencodeCost : Option ℚ) : Option ℚ :=
  match pricing with
  | some p =>
    some ((tokens.input * p.input / 1000000) + (tokens.output * p.output / 1000000) +
      (tokens.cacheRead * p.cacheRead / 1000000) + (tokens.cacheWrite * p.cacheWrite / 1000000))
  | none =>
    match opencodeCost with
    | some c => if c > 0 then some c else none
    | none => none

/-- The `token_usage` table in insertion order. -/
abbrev Store := List TokenUsageRecord

/-- A row conflicts with the table when its `id` (PRIMARY KEY) or its
`message_id` (UNIQUE) already occurs. -/
def insertConflict (store : Store) (r : TokenUsageRecord) : Bool :=
  store.any (fun x => (x.id == r.id) || (x.message_id == r.message_id))

/-- Embeds `UsageDatabase.insert`: `INSERT OR IGNORE` appends the row
unless a uniqueness constraint fires, in which case the statement is a
no-op; either way no exception escapes and the method reports `true`.
A storage-layer failure (the `catch` branch returning `false`) is
injected separately at the event-handler level. -/
def UsageDatabase.insert (store : Store) (r : TokenUsageRecord) : Bool × Store :=
  (true, if insertConflict store r then store else store ++ [r])

/-- Embeds `UsageDatabase.hasMessage`. -/
def UsageDatabase.hasMessage (store : Store) (messageId : Str) : Bool :=
  store.any (fun x => x.message_id == messageId)

/-- The row order produced by `ORDER BY created_at ASC` under the BINARY
text collation (SQLite leaves the relative order of equal keys
unspecified, so any sort refines the SQL semantics). -/
def sortByCreatedAt (rs : List TokenUsageRecord) : List TokenUsageRecord :=
  rs.insertionSort (fun a b => strLe a.created_at b.created_at = true)

/-- Embeds `UsageDatabase.getSessionStats`: all rows of one session,
ordered by `created_at`. -/
def UsageDatabase.getSessionStats (store : Store) (sessionId : Str) :
    List TokenUsageRecord :=
  sortByCreatedAt (store.filter (fun r => r.session_id == sessionId))

/-- Embeds `UsageDatabase.getAggregateStats`: filter to one machine and a
half-open `created_at` interval, optionally add a `LIKE '%filter%'`
clause (skipped for a missing or empty filter, mirroring the JS
truthiness test), order by `created_at`, and count distinct sessions. -/
def UsageDatabase.getAggregateStats (store : Store) (machineId startDate endDate : Str)
    (modelFilter : Option Str) : List TokenUsageRecord × ℕ :=
  let base := store.filter (fun r =>
    (r.machine_id == machineId) && strLe startDate r.created_at &&
      strLt r.created_at endDate)
  let filtered :=
    match modelFilter with
    | none => base
    | some f =>
      if f = [] then base
      else base.filter (fun r => likeMatches (likePattern f) r.model)
  let records := sortByCreatedAt filtered
  (records, ((records.map (fun r => r.session_id)).dedup).length)

/-- Per-model slice of the aggregate report (`byModel` entries of
`AggregateStats`). -/
structure AggregateModelStats where
  tokens : ℕ
  cost : Option ℚ
deriving DecidableEq, Repr

/-- Result of `calculateAggregates` (the `sessions` field is attached by
the caller from the query's distinct-session count). -/
structure AggregateTotals where
  tokens : ℕ
  cost : ℚ
  messages : ℕ
  byModel : List (Str × AggregateModelStats)
deriving DecidableEq, Repr

/-- Loop accumulator of `calculateAggregates`. -/
structure AggAcc where
  byModel : List (Str × AggregateModelStats)
  totalTokens : ℕ
  totalCost : ℚ
  hasAnyCost : Bool
deriving DecidableEq, Repr

/-- One iteration of the `calculateAggregates` loop. -/
def aggStep (acc : AggAcc) (r : TokenUsageRecord) : AggAcc :=
  let tokens := r.input_tokens + r.output_tokens + r.cache_read_tokens + r.cache_write_tokens
  { byModel := updateAssoc acc.byModel r.model ⟨0, none⟩ (fun m =>
      { tokens := m.tokens + tokens,
        cost := match r.cost with
          | some c => some (m.cost.getD 0 + c)
          | none => m.cost }),
    totalTokens := acc.totalTokens + tokens,
    totalCost := match r.cost with
      | some c => acc.totalCost + c
      | none => acc.totalCost,
    hasAnyCost := acc.hasAnyCost || r.cost.isSome }

/-- Embeds `calculateAggregates`. -/
def calculateAggregates (records : List TokenUsageRecord) : AggregateTotals :=
  let acc := records.foldl aggStep ⟨[], 0, 0, false⟩
  { tokens := acc.totalTokens,
    cost := if acc.hasAnyCost then acc.totalCost else 0,
    messages := records.length,
    byModel := acc.byModel }

/-- Per-model slice of the in-memory session stats. -/
structure ModelStats where
  input : ℕ
  output : ℕ
  cacheRead : ℕ
  cacheWrite : ℕ
  cost : Option ℚ
deriving DecidableEq, Repr

/-- In-memory per-session totals (interface `SessionStats`; the
display-only `startTime` wall-clock field is not embedded). -/
structure SessionStats where
  totalTokens : ℕ
  totalCost : ℚ
  messageCount : ℕ
  byModel : List (Str × ModelStats)
deriving DecidableEq, Repr

/-- The fresh entry `getOrCreateSessionStats` installs. -/
def emptySessionStats : SessionStats := ⟨0, 0, 0, []⟩

/-- Loop body of `buildSessionStats` (token, cost and per-model updates;
the message count is set up front from the record count). -/
def buildStep (stats : SessionStats) (r : TokenUsageRecord) : SessionStats :=
  let tokens := r.input_tokens + r.output_tokens + r.cache_read_tokens + r.cache_write_tokens
  { totalTokens := stats.totalTokens + tokens,
    totalCost := match r.cost with
      | some c => stats.totalCost + c
      | none => stats.totalCost,
    messageCount := stats.messageCount,
    byModel := updateAssoc stats.byModel r.model ⟨0, 0, 0, 0, none⟩ (fun m =>
      { input := m.input + r.input_tokens,
        output := m.output + r.output_tokens,
        cacheRead := m.cacheRead + r.cache_read_tokens,
        cacheWrite := m.cacheWrite + r.cache_write_tokens,
        cost := match r.cost with
          | some c => some (m.cost.getD 0 + c)
          | none => m.cost }) }

/-- Embeds `buildSessionStats`: rebuild the session stats from stored
records (message count = number of records, then fold the records). -/
def buildSessionStats (records : List TokenUsageRecord) : SessionStats :=
  records.foldl buildStep
    { totalTokens := 0, totalCost := 0, messageCount := records.length, byModel := [] }

/-- Embeds the in-place session-stats update of the event handler (the
block after a successful insert): add the message's tokens and cost,
bump the message count, and update the per-model breakdown. -/
def ingestStep (stats : SessionStats) (tokens : TokenCounts) (model : Str)
    (cost : Option ℚ) : SessionStats :=
  let total := tokens.input + tokens.output + tokens.cacheRead + tokens.cacheWrite
  { totalTokens := stats.totalTokens + total,
    totalCost := match cost with
      | some c => stats.totalCost + c
      | none => stats.totalCost,
    messageCount := stats.messageCount + 1,
    byModel := updateAssoc stats.byModel model ⟨0, 0, 0, 0, none⟩ (fun m =>
      { input := m.input + tokens.input,
        output := m.output + tokens.output,
        cacheRead := m.cacheRead + tokens.cacheRead,
        cacheWrite := m.cacheWrite + tokens.cacheWrite,
        cost := match cost with
          | some c => some (m.cost.getD 0 + c)
          | none => m.cost }) }

/-- The three toast trigger modes. -/
inductive ToastTrigger
  | messages
  | cost
  | time
deriving DecidableEq, Repr

/-- Embeds `ToastConfig` (thresholds; money and minutes as `ℚ`). -/
structure ToastConfig where
  enabled : Bool
  trigger : ToastTrigger
  messagesInterval : ℕ
  costThreshold : ℚ
  timeIntervalMinutes : ℚ
deriving DecidableEq, Repr

/-- Embeds the resolved `PluginConfig` fields the core logic reads
(`dbPath` is I/O-only; `machineId` is already defaulted to the
hostname by `getConfig`). -/
structure PluginConfig where
  enabled : Bool
  machineId : Str
  toast : ToastConfig
  pricing : PricingTable
deriving DecidableEq, Repr

/-- Embeds `shouldShowToast`, with the closure-captured counters and the
current wall-clock time (milliseconds) as explicit arguments. -/
def shouldShowToast (toast : ToastConfig) (messagesSinceToast : ℕ) (costSinceToast : ℚ)
    (now lastToastTime : ℚ) : Bool :=
  if !toast.enabled then false
  else
    match toast.trigger with
    | ToastTrigger.messages => decide (messagesSinceToast ≥ toast.messagesInterval)
    | ToastTrigger.cost => decide (costSinceToast ≥ toast.costThreshold)
    | ToastTrigger.time => decide (now - lastToastTime ≥ toast.timeIntervalMinutes * 60 * 1000)

/-- Notifications surfaced to the host UI; only the severity variant is
relevant to the claims (message texts are display-only). -/
inductive ToastEvent
  | error
  | info
deriving DecidableEq, Repr

/-- The plugin's mutable state: database table plus the closure variables
of the plugin function (session cache, processed-message set, toast
counters). -/
structure HandlerState where
  store : Store
  sessionStats : List (Str × SessionStats)
  processedMessages : List Str
  lastToastTime : ℚ
  messagesSinceToast : ℕ
  costSinceToast : ℚ
deriving DecidableEq, Repr

/-- A completed assistant message carrying token data, after the shape
probing of the handler extracted a canonical model string. -/
structure Message where
  id : Str
  sessionID : Str
  model : Str
  tokens : TokenCounts
  cost : Option ℚ
deriving DecidableEq, Repr

/-- The record the event handler creates for a fresh completed message
(lines "Extract model info" through "Create record"): a new UUID, the
provider derived from the model string, the cost from the pricing
resolver with the host-supplied cost as fallback, and the ingestion
timestamp. -/
def mkRecord (cfg : PluginConfig) (msg : Message) (genId nowIso : Str) : TokenUsageRecord :=
  { id := genId, session_id := msg.sessionID, message_id := msg.id,
    model := msg.model, provider := providerOf msg.model,
    input_tokens := msg.tokens.input, output_tokens := msg.tokens.output,
    cache_read_tokens := msg.tokens.cacheRead, cache_write_tokens := msg.tokens.cacheWrite,
    cost := calculateCost msg.tokens (getPricing msg.model cfg.pricing) msg.cost,
    created_at := nowIso, machine_id := cfg.machineId }

/-- Embeds the `message.updated` branch of the event handler from the
dedup guards onward.  `genId` is the freshly generated UUID, `nowIso`
the ingestion timestamp string, `now` the wall clock in milliseconds,
and `insertOk` tells whether the storage layer succeeds (`false` embeds
the `catch` branch of `UsageDatabase.insert`, in which no row is
written).  Returns the new state and the surfaced notifications. -/
def handleMessage (cfg : PluginConfig) (st : HandlerState) (msg : Message)
    (genId nowIso : Str) (now : ℚ) (insertOk : Bool) :
    HandlerState × List ToastEvent :=
  if st.processedMessages.contains msg.id then (st, [])
  else if UsageDatabase.hasMessage st.store msg.id then
    ({ st with processedMessages := msg.id :: st.processedMessages }, [])
  else
    let cost := calculateCost msg.tokens (getPricing msg.model cfg.pricing) msg.cost
    let record : TokenUsageRecord := mkRecord cfg msg genId nowIso
    if !insertOk then (st, [ToastEvent.error])
    else
      let store' := (UsageDatabase.insert st.store record).2
      let sessionStats' := updateAssoc st.sessionStats msg.sessionID emptySessionStats
        (fun s => ingestStep s msg.tokens msg.model cost)
      let messages' := st.messagesSinceToast + 1
      let cost' := match cost with
        | some c => st.costSinceToast + c
        | none => st.costSinceToast
      if shouldShowToast cfg.toast messages' cost' now st.lastToastTime then
        ({ store := store',
           sessionStats := sessionStats',
           processedMessages := msg.id :: st.processedMessages,
           lastToastTime := now,
           messagesSinceToast := 0,
           costSinceToast := 0 },
         [ToastEvent.info])
      else
        ({ st with
            store := store',
            sessionStats := sessionStats',
            processedMessages := msg.id :: st.processedMessages,
            messagesSinceToast := messages',
            costSinceToast := cost' }, [])

/-- One inbound event together with its environment-supplied data. -/
structure EventInput where
  msg : Message
  genId : Str
  nowIso : Str
  now : ℚ
  insertOk : Bool
deriving DecidableEq, Repr

/-- Run a sequence of events through the handler, discarding toasts. -/
def runEvents (cfg : PluginConfig) (st : HandlerState) : List EventInput → HandlerState
  | [] => st
  | i :: is =>
    runEvents cfg (handleMessage cfg st i.msg i.genId i.nowIso i.now i.insertOk).1 is

/-- Result of the `usage` tool (report layout is display-only; the
report constructor carries the stats the formatter would render). -/
inductive UsageOutput
  | noSession
  | noData
  | report (stats : SessionStats) (full : Bool)
deriving DecidableEq, Repr

/-- Embeds `tool.usage.execute`: read the cached session stats; when the
entry is missing or empty, rebuild from the store (without writing the
result back into the cache). -/
def usageExecute (st : HandlerState) (currentSession : Option Str) (full : Bool) :
    UsageOutput × HandlerState :=
  match currentSession with
  | none => (UsageOutput.noSession, st)
  | some sid =>
    let records := UsageDatabase.getSessionStats st.store sid
    match lookupAssoc st.sessionStats sid with
    | some s =>
      if s.messageCount = 0 then
        (if records = [] then UsageOutput.noData
         else UsageOutput.report (buildSessionStats records) full, st)
      else (UsageOutput.report s full, st)
    | none =>
      (if records = [] then UsageOutput.noData
       else UsageOutput.report (buildSessionStats records) full, st)

/-! ### Association-list lemmas -/

theorem lookupAssoc_cons {β : Type} (a : Str × β) (m : List (Str × β)) (k : Str) :
    lookupAssoc (a :: m) k = if a.1 = k then some a.2 else lookupAssoc m k := by
  by_cases h : a.1 = k
  · have hb : (a.1 == k) = true := beq_iff_eq.mpr h
    simp [lookupAssoc, List.find?, hb, h]
  · have hb : (a.1 == k) = false := beq_eq_false_iff_ne.mpr h
    simp [lookupAssoc, List.find?, hb, h]

theorem lookupAssoc_append {β : Type} (m n : List (Str × β)) (k : Str) :
    lookupAssoc (m ++ n) k =
      match lookupAssoc m k with
      | some v => some v
      | none => lookupAssoc n k := by
  induction m with
  | nil => simp [lookupAssoc]
  | cons a m ih =>
    by_cases h : a.1 = k <;> simp [lookupAssoc_cons, h, ih]

theorem lookupAssoc_map_update {β : Type} (m : List (Str × β)) (k k' : Str) (f : β → β) :
    lookupAssoc (m.map (fun kv => if kv.1 == k then (kv.1, f kv.2) else kv)) k' =
      if k' = k then (lookupAssoc m k).map f else lookupAssoc m k' := by
  induction m with
  | nil => by_cases h : k' = k <;> simp [lookupAssoc, h]
  | cons a m ih =>
    rw [List.map_cons]
    by_cases hak : a.1 = k
    · have hb : (a.1 == k) = true := beq_iff_eq.mpr hak
      rw [hb, if_pos rfl, lookupAssoc_cons, lookupAssoc_cons, lookupAssoc_cons]
      by_cases hk : k' = k
      · rw [if_pos (hak.trans hk.symm), if_pos hk, if_pos hak]
        rfl
      · have h1 : a.1 ≠ k' := fun h => hk (h.symm.trans hak)
        rw [if_neg h1, ih, if_neg hk, if_neg hk, if_neg h1]
    · have hb : (a.1 == k) = false := beq_eq_false_iff_ne.mpr hak
      rw [hb, if_neg Bool.false_ne_true, lookupAssoc_cons, lookupAssoc_cons, lookupAssoc_cons]
      by_cases hk : k' = k
      · have h1 : a.1 ≠ k' := fun h => hak (h.trans hk)
        rw [if_neg h1, ih, if_pos hk, if_pos hk, if_neg hak]
      · by_cases hak' : a.1 = k'
        · rw [if_pos hak', if_neg hk, if_pos hak']
        · rw [if_neg hak', ih, if_neg hk, if_neg hk, if_neg hak']

theorem lookupAssoc_isSome_of_find? {β : Type} (m : List (Str × β)) (k : Str) :
    (m.find? (fun kv => kv.1 == k)).isSome = (lookupAssoc m k).isSome := by
  simp [lookupAssoc]

theorem lookupAssoc_updateAssoc {β : Type} (m : List (Str × β)) (k k' : Str) (d : β)
    (f : β → β) :
    lookupAssoc (updateAssoc m k d f) k' =
      if k' = k then some (f ((lookupAssoc m k).getD d)) else lookupAssoc m k' := by
  unfold updateAssoc
  by_cases hs : (m.find? (fun kv => kv.1 == k)).isSome
  · rw [if_pos hs, lookupAssoc_map_update]
    rw [lookupAssoc_isSome_of_find?] at hs
    obtain ⟨v, hv⟩ := Option.isSome_iff_exists.mp hs
    by_cases hk : k' = k <;> simp [hk, hv]
  · rw [if_neg hs, lookupAssoc_append]
    rw [lookupAssoc_isSome_of_find?] at hs
    have hnone : lookupAssoc m k = none := Option.not_isSome_iff_eq_none.mp hs
    by_cases hk : k' = k
    · rw [hk, hnone, if_pos rfl]
      show lookupAssoc [(k, f d)] k = some (f d)
      rw [lookupAssoc_cons, if_pos rfl]
    · rw [if_neg hk]
      cases hm : lookupAssoc m k' with
      | some v => rfl
      | none =>
        show lookupAssoc [(k, f d)] k' = none
        rw [lookupAssoc_cons, if_neg (fun h => hk h.symm)]
        rfl

/-! ### Lexicographic string-order lemmas (BINARY collation) -/

theorem strLt_irrefl (a : Str) : strLt a a = false := by
  induction a with
  | nil => rfl
  | cons x xs ih => simp [strLt, ih]

theorem strLt_trans : ∀ {a b c : Str}, strLt a b = true → strLt b c = true → strLt a c = true
  | [], [], _, hab, _ => by simp [strLt] at hab
  | [], _ :: _, [], _, hbc => by simp [strLt] at hbc
  | [], _ :: _, _ :: _, _, _ => by simp [strLt]
  | _ :: _, [], _, hab, _ => by simp [strLt] at hab
  | _ :: _, _ :: _, [], _, hbc => by simp [strLt] at hbc
  | x :: as, y :: bs, z :: cs, hab, hbc => by
    simp only [strLt] at hab hbc ⊢
    by_cases hxy : x = y
    · subst hxy
      rw [if_pos rfl] at hab
      by_cases hyz : x = z
      · subst hyz
        rw [if_pos rfl] at hbc
        rw [if_pos rfl]
        exact strLt_trans hab hbc
      · rw [if_neg hyz] at hbc
        rw [if_neg hyz]
        exact hbc
    · rw [if_neg hxy] at hab
      have hxy' : x < y := of_decide_eq_true hab
      by_cases hyz : y = z
      · rw [← hyz, if_neg hxy]
        exact hab
      · rw [if_neg hyz] at hbc
        have hyz' : y < z := of_decide_eq_true hbc
        have hxz : x < z := lt_trans hxy' hyz'
        rw [if_neg (ne_of_lt hxz)]
        exact decide_eq_true hxz

theorem strLt_total (a b : Str) (h : a ≠ b) : strLt a b = true ∨ strLt b a = true := by
  induction a generalizing b with
  | nil =>
    cases b with
    | nil => exact absurd rfl h
    | cons y ys => left; simp [strLt]
  | cons x xs ih =>
    cases b with
    | nil => right; simp [strLt]
    | cons y ys =>
      by_cases hxy : x = y
      · subst hxy
        have hne : xs ≠ ys := fun he => h (by rw [he])
        rcases ih ys hne with h1 | h1
        · left; simp [strLt, h1]
        · right; simp [strLt, h1]
      · rcases lt_or_gt_of_ne hxy with hlt | hgt
        · left; simp [strLt, hxy, hlt]
        · right
          have hyx : ¬ y = x := fun he => hxy he.symm
          simp [strLt, hyx, hgt]

theorem strLe_refl (a : Str) : strLe a a = true := by
  simp [strLe]

theorem strLe_trans {a b c : Str} (hab : strLe a b = true) (hbc : strLe b c = true) :
    strLe a c = true := by
  simp only [strLe, Bool.or_eq_true, beq_iff_eq] at hab hbc ⊢
  rcases hab with hab | hab
  · rcases hbc with hbc | hbc
    · exact Or.inl (strLt_trans hab hbc)
    · subst hbc; exact Or.inl hab
  · subst hab
    exact hbc

theorem strLe_total (a b : Str) : strLe a b = true ∨ strLe b a = true := by
  by_cases h : a = b
  · subst h; exact Or.inl (strLe_refl a)
  · rcases strLt_total a b h with h1 | h1
    · exact Or.inl (by simp [strLe, h1])
    · exact Or.inr (by simp [strLe, h1])

/-! ### Split / segment lemmas -/

theorem splitOnChar_ne_nil (c : Char) (s : Str) : splitOnChar c s ≠ [] := by
  cases s with
  | nil => simp [splitOnChar]
  | cons x xs =>
    by_cases h : x = c
    · simp [splitOnChar, h]
    · simp only [splitOnChar, if_neg h]
      cases hs : splitOnChar c xs <;> simp

theorem splitOnChar_of_not_mem {c : Char} {s : Str} (h : c ∉ s) :
    splitOnChar c s = [s] := by
  induction s with
  | nil => rfl
  | cons x xs ih =>
    have hx : x ≠ c := fun he => h (he ▸ List.mem_cons_self x xs)
    have hxs : c ∉ xs := fun hm => h (List.mem_cons_of_mem x hm)
    simp only [splitOnChar, if_neg hx, ih hxs]

theorem mem_splitOnChar_not_mem {c : Char} {s t : Str} (ht : t ∈ splitOnChar c s) :
    c ∉ t := by
  induction s generalizing t with
  | nil =>
    simp only [splitOnChar, List.mem_singleton] at ht
    subst ht; simp
  | cons x xs ih =>
    by_cases hx : x = c
    · simp only [splitOnChar, if_pos hx, List.mem_cons] at ht
      rcases ht with ht | ht
      · subst ht; simp
      · exact ih ht
    · simp only [splitOnChar, if_neg hx] at ht
      cases hs : splitOnChar c xs with
      | nil => exact absurd hs (splitOnChar_ne_nil c xs)
      | cons h0 t0 =>
        rw [hs] at ht
        rcases List.mem_cons.mp ht with ht | ht
        · subst ht
          intro hc
          rcases List.mem_cons.mp hc with hc | hc
          · exact hx hc.symm
          · exact ih (hs ▸ List.mem_cons_self h0 t0) hc
        · exact ih (hs ▸ List.mem_cons_of_mem h0 ht)

theorem getLastD_irrel {α : Type} {l : List α} (h : l ≠ []) (d d' : α) :
    l.getLastD d = l.getLastD d' := by
  cases l with
  | nil => exact absurd rfl h
  | cons a l => rw [List.getLastD_cons, List.getLastD_cons]

theorem getLastD_mem {α : Type} : ∀ (l : List α) (d : α), l.getLastD d ∈ d :: l
  | [], d => List.mem_singleton_self d
  | a :: l, d => by
    rw [List.getLastD_cons]
    exact List.mem_cons_of_mem d (getLastD_mem l a)

theorem splitOnChar_length_two {c : Char} {s : Str} (h : c ∈ s) :
    2 ≤ (splitOnChar c s).length := by
  induction s with
  | nil => simp at h
  | cons x xs ih =>
    by_cases hx : x = c
    · simp only [splitOnChar, if_pos hx, List.length_cons]
      have := List.length_pos.mpr (splitOnChar_ne_nil c xs)
      omega
    · have hxs : c ∈ xs := by
        rcases List.mem_cons.mp h with h1 | h1
        · exact absurd h1.symm hx
        · exact h1
      simp only [splitOnChar, if_neg hx]
      cases hs : splitOnChar c xs with
      | nil => exact absurd hs (splitOnChar_ne_nil c xs)
      | cons h0 t0 =>
        have := ih hxs
        rw [hs] at this
        simpa using this

theorem lastSegment_of_not_mem {s : Str} (h : '/' ∉ s) : lastSegment s = s := by
  simp [lastSegment, splitOnChar_of_not_mem h]

theorem not_mem_lastSegment (s : Str) : '/' ∉ lastSegment s := by
  unfold lastSegment
  cases hs : splitOnChar '/' s with
  | nil => exact absurd hs (splitOnChar_ne_nil '/' s)
  | cons h0 t0 =>
    have hmem : (h0 :: t0).getLastD [] ∈ h0 :: t0 := by
      rw [List.getLastD_cons]
      exact getLastD_mem t0 h0
    exact mem_splitOnChar_not_mem (by rw [hs]; exact hmem)

theorem lastSegment_cons_slash (ks : Str) : lastSegment ('/' :: ks) = lastSegment ks := by
  have h1 : splitOnChar '/' ('/' :: ks) = [] :: splitOnChar '/' ks := by
    simp only [splitOnChar, if_true]
  unfold lastSegment
  rw [h1, List.getLastD_cons]

theorem lastSegment_cons_of_mem {k : Char} {ks : Str} (hk : k ≠ '/') (h : '/' ∈ ks) :
    lastSegment (k :: ks) = lastSegment ks := by
  unfold lastSegment
  simp only [splitOnChar, if_neg hk]
  cases hs : splitOnChar '/' ks with
  | nil => exact absurd hs (splitOnChar_ne_nil '/' ks)
  | cons h0 t0 =>
    have hlen := splitOnChar_length_two h
    rw [hs] at hlen
    have ht0 : t0 ≠ [] := by
      intro he
      rw [he] at hlen
      simp at hlen
    simp only [List.getLastD_cons]
    exact getLastD_irrel ht0 (k :: h0) h0

theorem lastSegment_cons_of_not_mem {k : Char} {ks : Str} (hk : k ≠ '/') (h : '/' ∉ ks) :
    lastSegment (k :: ks) = k :: ks := by
  have : '/' ∉ k :: ks := by
    intro hc
    rcases List.mem_cons.mp hc with hc | hc
    · exact hk hc.symm
    · exact h hc
  exact lastSegment_of_not_mem this

/-! ### Suffix-test characterization (pricing suffix scan) -/

theorem tailMatch_slash_iff {m : Str} (hm : '/' ∉ m) (key : Str) :
    tailMatch ('/' :: m) key = true ↔ ('/' ∈ key ∧ lastSegment key = m) := by
  induction key with
  | nil =>
    constructor
    · intro h
      simp [tailMatch] at h
    · rintro ⟨h, _⟩
      simp at h
  | cons k ks ih =>
    have hstep : tailMatch ('/' :: m) (k :: ks) =
        (((k :: ks : Str) == ('/' :: m)) || tailMatch ('/' :: m) ks) := rfl
    rw [hstep, Bool.or_eq_true, beq_iff_eq]
    by_cases hks : '/' ∈ ks
    · have hls : lastSegment (k :: ks) = lastSegment ks := by
        by_cases hk : k = '/'
        · rw [hk, lastSegment_cons_slash]
        · exact lastSegment_cons_of_mem hk hks
      rw [hls]
      constructor
      · rintro (he | ht)
        · injection he with h1 h2
          exact absurd (h2 ▸ hks) hm
        · obtain ⟨h1, h2⟩ := ih.mp ht
          exact ⟨List.mem_cons_of_mem k h1, h2⟩
      · rintro ⟨_, h2⟩
        exact Or.inr (ih.mpr ⟨hks, h2⟩)
    · by_cases hk : k = '/'
      · have hls : lastSegment (k :: ks) = ks := by
          rw [hk, lastSegment_cons_slash, lastSegment_of_not_mem hks]
        rw [hls]
        constructor
        · rintro (he | ht)
          · injection he with h1 h2
            exact ⟨by rw [hk]; exact List.mem_cons_self _ _, h2⟩
          · exact absurd (ih.mp ht).1 hks
        · rintro ⟨_, h2⟩
          exact Or.inl (by rw [hk, h2])
      · constructor
        · rintro (he | ht)
          · injection he with h1 h2
            exact absurd h1 hk
          · exact absurd (ih.mp ht).1 hks
        · rintro ⟨hmem, _⟩
          rcases List.mem_cons.mp hmem with h1 | h1
          · exact absurd h1.symm hk
          · exact absurd h1 hks

theorem scan_pred_eq {stripped : Str} (hs : '/' ∉ stripped) (key : Str) :
    (tailMatch ('/' :: stripped) key || (key == stripped)) =
      ((lastSegment key == stripped) || (key == stripped)) := by
  rw [Bool.eq_iff_iff, Bool.or_eq_true, Bool.or_eq_true, beq_iff_eq, beq_iff_eq]
  rw [tailMatch_slash_iff hs key]
  constructor
  · rintro (⟨_, h2⟩ | h) <;> [exact Or.inl h2; exact Or.inr h]
  · rintro (h | h)
    · by_cases hmem : '/' ∈ key
      · exact Or.inl ⟨hmem, h⟩
      · exact Or.inr ((lastSegment_of_not_mem hmem).symm.trans h)
    · exact Or.inr h

theorem find?_congr_pred {α : Type} {p q : α → Bool} (h : ∀ a, p a = q a) (l : List α) :
    l.find? p = l.find? q := by
  induction l with
  | nil => rfl
  | cons a l ih =>
    simp only [List.find?, h a]
    cases q a
    · exact ih
    · rfl

/-! ### Substring and LIKE lemmas -/

theorem subMatch_nil_pat : ∀ t : Str, subMatch [] t = true
  | [] => rfl
  | c :: cs => by
    have := subMatch_nil_pat cs
    simp [subMatch, leadMatch, this]

theorem any_suffixes_isEmpty : ∀ t : Str, (suffixes t).any (fun s => s.isEmpty) = true
  | [] => rfl
  | c :: cs => by
    have := any_suffixes_isEmpty cs
    simp [suffixes, this]

theorem lowered_nil : lowered [] = [] := rfl

theorem lowered_cons (c : Char) (s : Str) :
    lowered (c :: s) = foldAsciiLower c :: lowered s := rfl

theorem likeMatches_append_percent {f : Str} (hp : '%' ∉ f) (hu : '_' ∉ f) :
    ∀ t : Str, likeMatches (f ++ ['%']) t = leadMatch (lowered f) (lowered t) := by
  induction f with
  | nil =>
    intro t
    have h2 : likeMatches ['%'] t = (suffixes t).any (fun s => likeMatches [] s) := by
      simp only [likeMatches]
      rw [if_pos trivial]
    have h3 : (fun s : Str => likeMatches [] s) = (fun s : Str => s.isEmpty) := rfl
    show likeMatches ['%'] t = leadMatch [] (lowered t)
    rw [h2, h3, any_suffixes_isEmpty]
    rfl
  | cons a f' ih =>
    have ha1 : a ≠ '%' := fun h => hp (h ▸ List.mem_cons_self a f')
    have ha2 : a ≠ '_' := fun h => hu (h ▸ List.mem_cons_self a f')
    have hp' : '%' ∉ f' := fun h => hp (List.mem_cons_of_mem a h)
    have hu' : '_' ∉ f' := fun h => hu (List.mem_cons_of_mem a h)
    intro t
    cases t with
    | nil =>
      show likeMatches (a :: (f' ++ ['%'])) [] = leadMatch (lowered (a :: f')) []
      simp only [likeMatches, if_neg ha1]
      rfl
    | cons c cs =>
      show likeMatches (a :: (f' ++ ['%'])) (c :: cs) =
        leadMatch (lowered (a :: f')) (lowered (c :: cs))
      simp only [likeMatches, if_neg ha1, if_neg ha2]
      rw [ih hp' hu' cs]
      rfl

theorem subMatch_eq_any_suffixes (pat : Str) :
    ∀ t : Str, subMatch pat t = (suffixes t).any (fun s => leadMatch pat s)
  | [] => by simp [subMatch, suffixes]
  | c :: cs => by
    have := subMatch_eq_any_suffixes pat cs
    simp only [subMatch, suffixes, List.any_cons]
    rw [this]

theorem suffixes_lowered (t : Str) : suffixes (lowered t) = (suffixes t).map lowered := by
  induction t with
  | nil => rfl
  | cons c cs ih =>
    rw [lowered_cons]
    simp only [suffixes, List.map_cons]
    rw [ih, lowered_cons]

theorem likeMatches_likePattern {f : Str} (hp : '%' ∉ f) (hu : '_' ∉ f) (t : Str) :
    likeMatches (likePattern f) t = subMatch (lowered f) (lowered t) := by
  have h1 : likeMatches (likePattern f) t =
      (suffixes t).any (fun s => likeMatches (f ++ ['%']) s) := by
    simp only [likePattern, likeMatches]
    rw [if_pos trivial]
  rw [h1, subMatch_eq_any_suffixes, suffixes_lowered, List.any_map]
  have h2 : (fun s : Str => likeMatches (f ++ ['%']) s) =
      ((fun s => leadMatch (lowered f) s) ∘ lowered) := by
    funext s
    exact likeMatches_append_percent hp hu s
  rw [h2]

/-! ### Provider-derivation lemma -/

theorem headD_splitOnChar (c : Char) (d : Str) :
    ∀ s : Str, (splitOnChar c s).headD d = s.takeWhile (fun x => !(x == c))
  | [] => rfl
  | x :: xs => by
    by_cases h : x = c
    · have hb : (x == c) = true := beq_iff_eq.mpr h
      simp [splitOnChar, h, List.takeWhile_cons, hb]
    · have hb : (x == c) = false := beq_eq_false_iff_ne.mpr h
      simp only [splitOnChar, if_neg h]
      cases hs : splitOnChar c xs with
      | nil => exact absurd hs (splitOnChar_ne_nil c xs)
      | cons h0 t0 =>
        have ih := headD_splitOnChar c d xs
        rw [hs] at ih
        simp only [List.headD_cons] at ih ⊢
        rw [List.takeWhile_cons, hb]
        simp only [Bool.not_false, if_true]
        rw [← ih]

theorem providerOf_eq_takeWhile (model : Str) :
    providerOf model = model.takeWhile (fun x => !(x == '/')) :=
  headD_splitOnChar '/' (str "unknown") model

/-! ### Ordering of query results -/

theorem perm_sortByCreatedAt (rs : List TokenUsageRecord) : (sortByCreatedAt rs).Perm rs :=
  List.perm_insertionSort _ rs

theorem sorted_sortByCreatedAt (rs : List TokenUsageRecord) :
    (sortByCreatedAt rs).Pairwise (fun a b => strLe a.created_at b.created_at = true) := by
  haveI : IsTotal TokenUsageRecord (fun a b => strLe a.created_at b.created_at = true) :=
    ⟨fun a b => strLe_total a.created_at b.created_at⟩
  haveI : IsTrans TokenUsageRecord (fun a b => strLe a.created_at b.created_at = true) :=
    ⟨fun _ _ _ hab hbc => strLe_trans hab hbc⟩
  exact List.sorted_insertionSort _ rs

/-! ### Store-insert lemmas -/

/-- Apply a sequence of inserts to the store (each insert reports `true`,
so only the evolving table matters). -/
def insertAll (store : Store) (rs : List TokenUsageRecord) : Store :=
  rs.foldl (fun acc r => (UsageDatabase.insert acc r).2) store

theorem insertAll_append (store : Store) (as bs : List TokenUsageRecord) :
    insertAll store (as ++ bs) = insertAll (insertAll store as) bs :=
  List.foldl_append _ _ as bs

theorem mem_insertAll {store : Store} {rs : List TokenUsageRecord} {x : TokenUsageRecord}
    (hx : x ∈ insertAll store rs) : x ∈ store ∨ x ∈ rs := by
  induction rs generalizing store with
  | nil => exact Or.inl hx
  | cons r rs ih =>
    rcases ih hx with h | h
    · have h' : x ∈ (if insertConflict store r = true then store else store ++ [r]) := h
      by_cases hc : insertConflict store r = true
      · rw [if_pos hc] at h'
        exact Or.inl h'
      · rw [if_neg hc] at h'
        rcases List.mem_append.mp h' with h1 | h1
        · exact Or.inl h1
        · exact Or.inr (List.mem_cons.mpr (Or.inl (List.mem_singleton.mp h1)))
    · exact Or.inr (List.mem_cons_of_mem r h)

theorem filter_insertAll_msg (m : Str) {rs : List TokenUsageRecord}
    (h : ∀ r ∈ rs, r.message_id ≠ m) (store : Store) :
    (insertAll store rs).filter (fun x => x.message_id == m) =
      store.filter (fun x => x.message_id == m) := by
  induction rs generalizing store with
  | nil => rfl
  | cons r rs ih =>
    have hr : r.message_id ≠ m := h r (List.mem_cons_self r rs)
    have hrest : ∀ r' ∈ rs, r'.message_id ≠ m := fun r' hr' => h r' (List.mem_cons_of_mem r hr')
    show ((insertAll (UsageDatabase.insert store r).2 rs).filter _) = _
    rw [ih hrest]
    show ((if insertConflict store r = true then store else store ++ [r]).filter _) = _
    by_cases hc : insertConflict store r = true
    · rw [if_pos hc]
    · rw [if_neg hc, List.filter_append]
      have : ([r].filter (fun x => x.message_id == m)) = [] := by
        simp [beq_eq_false_iff_ne.mpr hr]
      rw [this, List.append_nil]

/-- C1.  Insert idempotence on the `message_id` key: when a record `r1`
is inserted into a store that has never seen its `message_id`, then —
regardless of other interleaved inserts `pre`/`mid` with different
`message_id`s, and a later duplicate `r2` with the same `message_id` but
arbitrary payload — the duplicate insert succeeds as a no-op, and exactly
one record with that `message_id` is stored, namely `r1`.  The `id`
freshness hypotheses reflect the `crypto.randomUUID()` primary keys. -/
theorem insert_dedup_idempotent
    (store : Store) (pre mid : List TokenUsageRecord) (r1 r2 : TokenUsageRecord)
    (hm : r2.message_id = r1.message_id)
    (hstore : ∀ x ∈ store, x.message_id ≠ r1.message_id)
    (hpre : ∀ x ∈ pre, x.message_id ≠ r1.message_id)
    (hmid : ∀ x ∈ mid, x.message_id ≠ r1.message_id)
    (hidstore : ∀ x ∈ store, x.id ≠ r1.id)
    (hidpre : ∀ x ∈ pre, x.id ≠ r1.id) :
    (UsageDatabase.insert (insertAll store (pre ++ r1 :: mid)) r2).1 = true ∧
    (UsageDatabase.insert (insertAll store (pre ++ r1 :: mid)) r2).2 =
      insertAll store (pre ++ r1 :: mid) ∧
    (insertAll store ((pre ++ r1 :: mid) ++ [r2])).filter
      (fun x => x.message_id == r1.message_id) = [r1] := by
  have hS1 : ∀ x ∈ insertAll store pre, x.message_id ≠ r1.message_id ∧ x.id ≠ r1.id := by
    intro x hx
    rcases mem_insertAll hx with h | h
    · exact ⟨hstore x h, hidstore x h⟩
    · exact ⟨hpre x h, hidpre x h⟩
  have hconf1 : insertConflict (insertAll store pre) r1 = false := by
    rw [insertConflict, List.any_eq_false]
    intro x hx
    obtain ⟨h1, h2⟩ := hS1 x hx
    simp [beq_eq_false_iff_ne.mpr h1, beq_eq_false_iff_ne.mpr h2]
  have hins : insertAll store (pre ++ r1 :: mid) =
      insertAll ((insertAll store pre) ++ [r1]) mid := by
    rw [show pre ++ r1 :: mid = (pre ++ [r1]) ++ mid by simp, insertAll_append, insertAll_append]
    have : insertAll (insertAll store pre) [r1] = insertAll store pre ++ [r1] := by
      show (UsageDatabase.insert (insertAll store pre) r1).2 = _
      unfold UsageDatabase.insert
      rw [hconf1]
      rfl
    rw [this]
  have hfil : (insertAll store (pre ++ r1 :: mid)).filter
      (fun x => x.message_id == r1.message_id) = [r1] := by
    rw [hins, filter_insertAll_msg _ hmid, List.filter_append]
    have h1 : (insertAll store pre).filter (fun x => x.message_id == r1.message_id) = [] := by
      rw [List.filter_eq_nil_iff]
      intro x hx
      simp [beq_eq_false_iff_ne.mpr (hS1 x hx).1]
    rw [h1]
    simp
  have hr1mem : r1 ∈ insertAll store (pre ++ r1 :: mid) :=
    List.mem_of_mem_filter (hfil ▸ List.mem_singleton_self r1)
  have hconf2 : insertConflict (insertAll store (pre ++ r1 :: mid)) r2 = true := by
    rw [insertConflict, List.any_eq_true]
    refine ⟨r1, hr1mem, ?_⟩
    have : (r1.message_id == r2.message_id) = true := beq_iff_eq.mpr hm.symm
    simp [this]
  have hnoop : (UsageDatabase.insert (insertAll store (pre ++ r1 :: mid)) r2).2 =
      insertAll store (pre ++ r1 :: mid) := by
    unfold UsageDatabase.insert
    rw [hconf2]
    rfl
  refine ⟨rfl, hnoop, ?_⟩
  rw [insertAll_append]
  show ((UsageDatabase.insert (insertAll store (pre ++ r1 :: mid)) r2).2).filter _ = _
  rw [hnoop, hfil]

/-- Concrete records used by the witnesses and counterexamples. -/
def wRec1 : TokenUsageRecord :=
  { id := str "id1", session_id := str "s1", message_id := str "m1",
    model := str "anthropic/claude-sonnet-4-5", provider := str "anthropic",
    input_tokens := 1000, output_tokens := 500, cache_read_tokens := 0,
    cache_write_tokens := 0, cost := none,
    created_at := str "2026-01-02T00:00:00.000Z", machine_id := str "mac1" }

/-- A second record with the same `message_id` as `wRec1` but a different
`id` and different payload. -/
def wRec2 : TokenUsageRecord :=
  { id := str "id2", session_id := str "s1", message_id := str "m1",
    model := str "openai/gpt-5", provider := str "openai",
    input_tokens := 7, output_tokens := 7, cache_read_tokens := 7,
    cache_write_tokens := 7, cost := none,
    created_at := str "2026-01-03T00:00:00.000Z", machine_id := str "mac1" }

theorem insert_dedup_idempotent_witness :
    (UsageDatabase.insert (insertAll [] ([] ++ wRec1 :: [])) wRec2).1 = true ∧
    (UsageDatabase.insert (insertAll [] ([] ++ wRec1 :: [])) wRec2).2 =
      insertAll [] ([] ++ wRec1 :: []) ∧
    (insertAll [] (([] ++ wRec1 :: []) ++ [wRec2])).filter
      (fun x => x.message_id == wRec1.message_id) = [wRec1] :=
  insert_dedup_idempotent [] [] [] wRec1 wRec2 rfl
    (by intro x hx; simp at hx) (by intro x hx; simp at hx) (by intro x hx; simp at hx)
    (by intro x hx; simp at hx) (by intro x hx; simp at hx)

/-- C2.  Cost-calculator precedence: a resolved rate card always yields
the per-million-token sum (whatever the fallback, including a zero sum);
with no rate card, a strictly positive fallback is used verbatim; with no
rate card and an absent or non-positive fallback the cost is unknown. -/
theorem calculateCost_precedence :
    (∀ (tokens : TokenCounts) (p : ModelPricing) (fallback : Option ℚ),
       calculateCost tokens (some p) fallback =
         some ((tokens.input * p.input / 1000000) + (tokens.output * p.output / 1000000) +
           (tokens.cacheRead * p.cacheRead / 1000000) +
           (tokens.cacheWrite * p.cacheWrite / 1000000))) ∧
    (∀ (tokens : TokenCounts) (c : ℚ), 0 < c →
       calculateCost tokens none (some c) = some c) ∧
    (∀ (tokens : TokenCounts) (c : ℚ), ¬ 0 < c →
       calculateCost tokens none (some c) = none) ∧
    (∀ tokens : TokenCounts, calculateCost tokens none none = none) := by
  refine ⟨fun _ _ _ => rfl, fun t c hc => ?_, fun t c hc => ?_, fun _ => rfl⟩
  · show (if c > 0 then some c else none) = some c
    rw [if_pos hc]
  · show (if c > 0 then some c else none) = none
    rw [if_neg hc]

theorem calculateCost_precedence_witness :
    calculateCost ⟨0, 0, 0, 0⟩ (some ⟨3, 15, 3/10, 375/100⟩) (some (5/2)) = some 0 ∧
    ((0 : ℚ) < 5/2 ∧ calculateCost ⟨1, 2, 3, 4⟩ none (some (5/2)) = some (5/2)) ∧
    (¬ (0 : ℚ) < 0 ∧ calculateCost ⟨1, 2, 3, 4⟩ none (some 0) = none) ∧
    calculateCost ⟨1, 2, 3, 4⟩ none none = none := by
  refine ⟨?_, ⟨by norm_num, calculateCost_precedence.2.1 ⟨1, 2, 3, 4⟩ (5/2) (by norm_num)⟩,
    ⟨by norm_num, calculateCost_precedence.2.2.1 ⟨1, 2, 3, 4⟩ 0 (by norm_num)⟩,
    calculateCost_precedence.2.2.2 ⟨1, 2, 3, 4⟩⟩
  rw [calculateCost_precedence.1 ⟨0, 0, 0, 0⟩ ⟨3, 15, 3/10, 375/100⟩ (some (5/2))]
  norm_num

/-! ### Pricing resolution (C3) -/

/-- Resolver transcribed from the specification's wording, used as the
reference side of the refinement proof: exact lookup in the merged table,
else the first merged entry whose key's suffix after the last `/` equals
the stripped model name, or whose whole key equals the stripped name. -/
def specResolvePricing (model : Str) (overrides defaults : PricingTable) :
    Option ModelPricing :=
  let merged := mergePricing defaults overrides
  match lookupAssoc merged model with
  | some p => some p
  | none =>
    let stripped := lastSegment model
    (merged.find? (fun kv => (lastSegment kv.1 == stripped) || kv.1 == stripped)).map
      (fun kv => kv.2)

theorem getPricing_eq_specResolve (model : Str) (defaults overrides : PricingTable) :
    getPricing model (mergePricing defaults overrides) =
      specResolvePricing model overrides defaults := by
  show (match lookupAssoc (mergePricing defaults overrides) model with
    | some p => some p
    | none => ((mergePricing defaults overrides).find? (fun kv : Str × ModelPricing =>
        tailMatch ('/' :: lastSegment model) kv.1 || kv.1 == lastSegment model)).map
        (fun kv : Str × ModelPricing => kv.2)) =
    (match lookupAssoc (mergePricing defaults overrides) model with
    | some p => some p
    | none => ((mergePricing defaults overrides).find? (fun kv : Str × ModelPricing =>
        (lastSegment kv.1 == lastSegment model) || kv.1 == lastSegment model)).map
        (fun kv : Str × ModelPricing => kv.2))
  cases lookupAssoc (mergePricing defaults overrides) model with
  | some p => rfl
  | none =>
    rw [find?_congr_pred
      (fun kv : Str × ModelPricing => scan_pred_eq (not_mem_lastSegment model) kv.1)
      (mergePricing defaults overrides)]

theorem lookupAssoc_mapped_defaults (defaults overrides : PricingTable) (k : Str) :
    lookupAssoc (defaults.map (fun kv => (kv.1, (lookupAssoc overrides kv.1).getD kv.2))) k =
      (lookupAssoc defaults k).map (fun v => (lookupAssoc overrides k).getD v) := by
  induction defaults with
  | nil => rfl
  | cons a ds ih =>
    rw [List.map_cons, lookupAssoc_cons, lookupAssoc_cons]
    by_cases hak : a.1 = k
    · rw [if_pos hak, if_pos hak, hak]
      rfl
    · rw [if_neg hak, if_neg hak, ih]

theorem lookupAssoc_filtered_overrides (defaults overrides : PricingTable) (k : Str)
    (hd : lookupAssoc defaults k = none) :
    lookupAssoc (overrides.filter (fun kv => (lookupAssoc defaults kv.1).isNone)) k =
      lookupAssoc overrides k := by
  induction overrides with
  | nil => rfl
  | cons a os ih =>
    rw [List.filter_cons]
    by_cases hak : a.1 = k
    · have hkeep : ((lookupAssoc defaults a.1).isNone) = true := by
        rw [hak, hd]
        rfl
      rw [hkeep, if_pos rfl, lookupAssoc_cons, lookupAssoc_cons, if_pos hak, if_pos hak]
    · by_cases hkeep : ((lookupAssoc defaults a.1).isNone) = true
      · rw [hkeep, if_pos rfl, lookupAssoc_cons, lookupAssoc_cons,
          if_neg hak, if_neg hak, ih]
      · have hkeep' : ((lookupAssoc defaults a.1).isNone) = false :=
          Bool.eq_false_iff.mpr hkeep
        rw [hkeep', if_neg Bool.false_ne_true, ih, lookupAssoc_cons, if_neg hak]

theorem lookupAssoc_mergePricing (defaults overrides : PricingTable) (k : Str) :
    lookupAssoc (mergePricing defaults overrides) k =
      match lookupAssoc overrides k with
      | some v => some v
      | none => lookupAssoc defaults k := by
  unfold mergePricing
  rw [lookupAssoc_append, lookupAssoc_mapped_defaults]
  cases hd : lookupAssoc defaults k with
  | some v =>
    show some ((lookupAssoc overrides k).getD v) =
      (match lookupAssoc overrides k with
       | some w => some w
       | none => some v)
    cases lookupAssoc overrides k <;> rfl
  | none =>
    show lookupAssoc (overrides.filter _) k = _
    rw [lookupAssoc_filtered_overrides defaults overrides k hd]
    cases lookupAssoc overrides k <;> rfl

/-- C3.  The pricing resolver follows the spec's three-step algorithm:
it coincides with the resolver transcribed from the spec's wording on
every model and every pair of override/default tables; the merged-table
lookup lets an override replace exactly the default entry with the same
key; and, when the exact lookup misses (here: an empty default table), an
override keyed `claude-sonnet-4-5` resolves for the incoming model
`anthropic/claude-sonnet-4-5` by the suffix scan.  Matching is exact on
characters throughout — no case or whitespace normalization exists in
either definition. -/
theorem pricing_resolution_algorithm :
    (∀ (model : Str) (defaults overrides : PricingTable),
       getPricing model (mergePricing defaults overrides) =
         specResolvePricing model overrides defaults) ∧
    (∀ (defaults overrides : PricingTable) (k : Str),
       lookupAssoc (mergePricing defaults overrides) k =
         match lookupAssoc overrides k with
         | some v => some v
         | none => lookupAssoc defaults k) ∧
    getPricing (str "anthropic/claude-sonnet-4-5")
        (mergePricing [] [(str "claude-sonnet-4-5", ⟨1, 2, 3, 4⟩)]) = some ⟨1, 2, 3, 4⟩ :=
  ⟨fun model defaults overrides => getPricing_eq_specResolve model defaults overrides,
   fun defaults overrides k => lookupAssoc_mergePricing defaults overrides k,
   rfl⟩

/-! ### Aggregation lemmas (C4) -/

/-- Total of the four token fields of one record. -/
def recordTokens (r : TokenUsageRecord) : ℕ :=
  r.input_tokens + r.output_tokens + r.cache_read_tokens + r.cache_write_tokens

/-- Sum of the token totals of a list of records. -/
def sumTokens (rs : List TokenUsageRecord) : ℕ := (rs.map recordTokens).sum

/-- Sum of the known (non-null) costs of a list of records. -/
def sumKnownCosts (rs : List TokenUsageRecord) : ℚ :=
  (rs.filterMap (fun r => r.cost)).sum

/-- The cost entry the per-model breakdown should carry: null exactly
when every contributing record has a null cost, else the known sum. -/
def costOpt (rs : List TokenUsageRecord) : Option ℚ :=
  if rs.all (fun r => r.cost.isNone) then none else some (sumKnownCosts rs)

theorem sumTokens_append (as bs : List TokenUsageRecord) :
    sumTokens (as ++ bs) = sumTokens as + sumTokens bs := by
  simp [sumTokens]

theorem sumTokens_cons (r : TokenUsageRecord) (rs : List TokenUsageRecord) :
    sumTokens (r :: rs) = recordTokens r + sumTokens rs := by
  simp [sumTokens]

theorem sumKnownCosts_of_all_none {rs : List TokenUsageRecord}
    (h : ∀ r ∈ rs, r.cost = none) : sumKnownCosts rs = 0 := by
  have : rs.filterMap (fun r => r.cost) = [] := by
    rw [List.filterMap_eq_nil_iff]
    exact h
  rw [sumKnownCosts, this, List.sum_nil]

theorem costOpt_append_none {r : TokenUsageRecord} (hc : r.cost = none)
    (rs : List TokenUsageRecord) : costOpt (rs ++ [r]) = costOpt rs := by
  unfold costOpt
  rw [List.all_append]
  have h1 : ([r].all (fun x => x.cost.isNone)) = true := by simp [hc]
  rw [h1, Bool.and_true]
  have h2 : sumKnownCosts (rs ++ [r]) = sumKnownCosts rs := by
    unfold sumKnownCosts
    rw [List.filterMap_append]
    have : [r].filterMap (fun x => x.cost) = [] := by simp [hc]
    rw [this, List.append_nil]
  rw [h2]

theorem costOpt_append_some {r : TokenUsageRecord} {c : ℚ} (hc : r.cost = some c)
    (rs : List TokenUsageRecord) :
    costOpt (rs ++ [r]) = some ((costOpt rs).getD 0 + c) := by
  unfold costOpt
  rw [List.all_append]
  have h1 : ([r].all (fun x => x.cost.isNone)) = false := by simp [hc]
  rw [h1, Bool.and_false, if_neg Bool.false_ne_true]
  have h2 : sumKnownCosts (rs ++ [r]) = sumKnownCosts rs + c := by
    unfold sumKnownCosts
    rw [List.filterMap_append]
    have : [r].filterMap (fun x => x.cost) = [c] := by simp [hc]
    rw [this, List.sum_append, List.sum_cons, List.sum_nil, add_zero]
  rw [h2]
  by_cases hall : (rs.all (fun x => x.cost.isNone)) = true
  · rw [if_pos hall]
    have : sumKnownCosts rs = 0 := by
      apply sumKnownCosts_of_all_none
      intro x hx
      exact Option.isNone_iff_eq_none.mp (List.all_eq_true.mp hall x hx)
    rw [this]
    norm_num
  · rw [if_neg hall]
    rfl

theorem aggAcc_totalTokens (rs : List TokenUsageRecord) (init : AggAcc) :
    (rs.foldl aggStep init).totalTokens = init.totalTokens + sumTokens rs := by
  induction rs generalizing init with
  | nil => simp [sumTokens]
  | cons r rs ih =>
    rw [List.foldl_cons, ih]
    have h1 : (aggStep init r).totalTokens = init.totalTokens + recordTokens r := rfl
    rw [h1, sumTokens_cons]
    omega

theorem aggAcc_totalCost (rs : List TokenUsageRecord) (init : AggAcc) :
    (rs.foldl aggStep init).totalCost = init.totalCost + sumKnownCosts rs := by
  induction rs generalizing init with
  | nil => simp [sumKnownCosts]
  | cons r rs ih =>
    rw [List.foldl_cons, ih]
    cases hc : r.cost with
    | none =>
      have h1 : (aggStep init r).totalCost = init.totalCost := by
        show (match r.cost with
          | some c => init.totalCost + c
          | none => init.totalCost) = _
        rw [hc]
      have h2 : sumKnownCosts (r :: rs) = sumKnownCosts rs := by
        simp [sumKnownCosts, List.filterMap_cons, hc]
      rw [h1, h2]
    | some c =>
      have h1 : (aggStep init r).totalCost = init.totalCost + c := by
        show (match r.cost with
          | some c' => init.totalCost + c'
          | none => init.totalCost) = _
        rw [hc]
      have h2 : sumKnownCosts (r :: rs) = c + sumKnownCosts rs := by
        simp [sumKnownCosts, List.filterMap_cons, hc]
      rw [h1, h2]
      ring

theorem aggAcc_hasAnyCost (rs : List TokenUsageRecord) (init : AggAcc) :
    (rs.foldl aggStep init).hasAnyCost =
      (init.hasAnyCost || rs.any (fun r => r.cost.isSome)) := by
  induction rs generalizing init with
  | nil => simp
  | cons r rs ih =>
    rw [List.foldl_cons, ih, List.any_cons]
    have h1 : (aggStep init r).hasAnyCost = (init.hasAnyCost || r.cost.isSome) := rfl
    rw [h1, Bool.or_assoc]

theorem aggEntry_step (prev : Option AggregateModelStats) (r : TokenUsageRecord)
    (rsf : List TokenUsageRecord)
    (hprev : prev = if rsf = [] then none else some ⟨sumTokens rsf, costOpt rsf⟩) :
    (⟨(prev.getD ⟨0, none⟩).tokens + recordTokens r,
      match r.cost with
      | some c => some ((prev.getD ⟨0, none⟩).cost.getD 0 + c)
      | none => (prev.getD ⟨0, none⟩).cost⟩ : AggregateModelStats) =
      ⟨sumTokens (rsf ++ [r]), costOpt (rsf ++ [r])⟩ := by
  by_cases hnil : rsf = []
  · subst hnil
    rw [if_pos rfl] at hprev
    subst hprev
    cases hc : r.cost with
    | none =>
      rw [costOpt_append_none hc]
      simp [costOpt, sumTokens, recordTokens]
    | some c =>
      rw [costOpt_append_some hc]
      simp [costOpt, sumTokens, sumKnownCosts, recordTokens, hc]
  · rw [if_neg hnil] at hprev
    subst hprev
    have htok : sumTokens (rsf ++ [r]) = sumTokens rsf + recordTokens r := by
      rw [sumTokens_append, sumTokens_cons]
      simp [sumTokens]
    cases hc : r.cost with
    | none =>
      rw [costOpt_append_none hc, htok]
      rfl
    | some c =>
      rw [costOpt_append_some hc, htok]
      rfl

theorem aggAcc_byModel (rs : List TokenUsageRecord) (m : Str) :
    lookupAssoc (rs.foldl aggStep ⟨[], 0, 0, false⟩).byModel m =
      (if rs.filter (fun r => r.model == m) = [] then none
       else some ⟨sumTokens (rs.filter (fun r => r.model == m)),
                  costOpt (rs.filter (fun r => r.model == m))⟩) := by
  induction rs using List.reverseRecOn with
  | nil => simp [lookupAssoc]
  | append_singleton rs r ih =>
    rw [List.foldl_append, List.foldl_cons, List.foldl_nil]
    have hstep : (aggStep (rs.foldl aggStep ⟨[], 0, 0, false⟩) r).byModel =
        updateAssoc (rs.foldl aggStep ⟨[], 0, 0, false⟩).byModel r.model ⟨0, none⟩
          (fun mm => ⟨mm.tokens + recordTokens r,
            match r.cost with
            | some c => some (mm.cost.getD 0 + c)
            | none => mm.cost⟩) := rfl
    rw [hstep, lookupAssoc_updateAssoc, List.filter_append]
    by_cases hm : m = r.model
    · subst hm
      rw [if_pos rfl]
      have hfr : [r].filter (fun x => x.model == r.model) = [r] := by simp
      rw [hfr]
      have hne : rs.filter (fun x => x.model == r.model) ++ [r] ≠ [] := by simp
      rw [if_neg hne]
      exact congrArg some
        (aggEntry_step (lookupAssoc (rs.foldl aggStep ⟨[], 0, 0, false⟩).byModel r.model) r
          (rs.filter (fun x => x.model == r.model)) ih)
    · rw [if_neg hm, ih]
      have hfr : [r].filter (fun x => x.model == m) = [] := by
        simp [beq_eq_false_iff_ne.mpr (fun h : r.model = m => hm h.symm)]
      rw [hfr, List.append_nil]

/-- First example record of the spec's aggregation test:
input 1000, output 500, known cost 0.01. -/
def exRecA : TokenUsageRecord :=
  { id := str "eA", session_id := str "s1", message_id := str "mA",
    model := str "anthropic/claude-sonnet-4-5", provider := str "anthropic",
    input_tokens := 1000, output_tokens := 500, cache_read_tokens := 0,
    cache_write_tokens := 0, cost := some (1/100),
    created_at := str "2026-01-02T00:00:00.000Z", machine_id := str "mac1" }

/-- Second example record: input 2000, unknown cost. -/
def exRecB : TokenUsageRecord :=
  { id := str "eB", session_id := str "s2", message_id := str "mB",
    model := str "openai/gpt-5", provider := str "openai",
    input_tokens := 2000, output_tokens := 0, cache_read_tokens := 0,
    cache_write_tokens := 0, cost := none,
    created_at := str "2026-01-01T00:00:00.000Z", machine_id := str "mac1" }

/-- C4.  Aggregation folding: total tokens are the sum of the four token
fields over all records, the message count is the record count, the cost
total sums exactly the known costs and is the number zero when no record
has a known cost, each per-model cost is null exactly when every
contributing record for that model has a null cost, and the spec's
concrete two-record example yields tokens 3500, cost 0.01, messages 2. -/
theorem calculateAggregates_folding :
    (∀ rs, (calculateAggregates rs).tokens = sumTokens rs) ∧
    (∀ rs, (calculateAggregates rs).messages = rs.length) ∧
    (∀ rs, (calculateAggregates rs).cost = sumKnownCosts rs) ∧
    (∀ rs, (∀ r ∈ rs, r.cost = none) → (calculateAggregates rs).cost = 0) ∧
    (∀ rs (m : Str) (e : AggregateModelStats),
       lookupAssoc (calculateAggregates rs).byModel m = some e →
       (e.cost = none ↔ ∀ r ∈ rs, r.model = m → r.cost = none)) ∧
    ((calculateAggregates [exRecA, exRecB]).tokens = 3500 ∧
     (calculateAggregates [exRecA, exRecB]).cost = 1/100 ∧
     (calculateAggregates [exRecA, exRecB]).messages = 2) := by
  have htok : ∀ rs, (calculateAggregates rs).tokens = sumTokens rs := by
    intro rs
    show (rs.foldl aggStep ⟨[], 0, 0, false⟩).totalTokens = sumTokens rs
    rw [aggAcc_totalTokens]
    show 0 + sumTokens rs = sumTokens rs
    omega
  have hcost : ∀ rs, (calculateAggregates rs).cost = sumKnownCosts rs := by
    intro rs
    show (if (rs.foldl aggStep ⟨[], 0, 0, false⟩).hasAnyCost = true
      then (rs.foldl aggStep ⟨[], 0, 0, false⟩).totalCost else 0) = sumKnownCosts rs
    by_cases h : (rs.foldl aggStep ⟨[], 0, 0, false⟩).hasAnyCost = true
    · rw [if_pos h, aggAcc_totalCost]
      show (0 : ℚ) + sumKnownCosts rs = sumKnownCosts rs
      ring
    · rw [if_neg h]
      rw [aggAcc_hasAnyCost] at h
      have hfalse : (rs.any (fun r => r.cost.isSome)) = false := by
        cases hany : rs.any (fun r => r.cost.isSome) with
        | false => rfl
        | true => exact absurd (by rw [hany]; rfl) h
      symm
      apply sumKnownCosts_of_all_none
      intro r hr
      have := List.any_eq_false.mp hfalse r hr
      exact Option.not_isSome_iff_eq_none.mp (by simpa using this)
  have hzero : ∀ rs, (∀ r ∈ rs, r.cost = none) → (calculateAggregates rs).cost = 0 := by
    intro rs h
    rw [hcost rs, sumKnownCosts_of_all_none h]
  have hbm : ∀ rs (m : Str) (e : AggregateModelStats),
      lookupAssoc (calculateAggregates rs).byModel m = some e →
      (e.cost = none ↔ ∀ r ∈ rs, r.model = m → r.cost = none) := by
    intro rs m e he
    have hchar : lookupAssoc (calculateAggregates rs).byModel m =
        (if rs.filter (fun r => r.model == m) = [] then none
         else some ⟨sumTokens (rs.filter (fun r => r.model == m)),
                    costOpt (rs.filter (fun r => r.model == m))⟩) := aggAcc_byModel rs m
    rw [hchar] at he
    by_cases hnil : rs.filter (fun r => r.model == m) = []
    · rw [if_pos hnil] at he
      exact absurd he (by simp)
    · rw [if_neg hnil] at he
      have he2 : e = ⟨sumTokens (rs.filter (fun r => r.model == m)),
                      costOpt (rs.filter (fun r => r.model == m))⟩ :=
        (Option.some_inj.mp he).symm
      rw [he2]
      show costOpt (rs.filter (fun r => r.model == m)) = none ↔ _
      unfold costOpt
      by_cases hall : ((rs.filter (fun r => r.model == m)).all (fun r => r.cost.isNone)) = true
      · rw [if_pos hall]
        constructor
        · intro _ r hr hrm
          have hmem : r ∈ rs.filter (fun x => x.model == m) :=
            List.mem_filter.mpr ⟨hr, beq_iff_eq.mpr hrm⟩
          exact Option.isNone_iff_eq_none.mp (List.all_eq_true.mp hall r hmem)
        · intro _
          rfl
      · rw [if_neg hall]
        constructor
        · intro h
          exact absurd h (by simp)
        · intro hforall
          exfalso
          apply hall
          rw [List.all_eq_true]
          intro x hx
          have hx' := List.mem_filter.mp hx
          exact Option.isNone_iff_eq_none.mpr (hforall x hx'.1 (beq_iff_eq.mp hx'.2))
  refine ⟨htok, fun _ => rfl, hcost, hzero, hbm, ?_, ?_, rfl⟩
  · decide
  · rw [hcost [exRecA, exRecB]]
    show (1/100 : ℚ) + 0 = 1/100
    norm_num

theorem calculateAggregates_folding_witness :
    (∀ r ∈ [exRecB], r.cost = none) ∧ (calculateAggregates [exRecB]).cost = 0 ∧
    lookupAssoc (calculateAggregates [exRecA, exRecB]).byModel (str "openai/gpt-5") =
      some ⟨2000, none⟩ ∧
    ((⟨2000, none⟩ : AggregateModelStats).cost = none ↔
      ∀ r ∈ [exRecA, exRecB], r.model = str "openai/gpt-5" → r.cost = none) :=
  ⟨by decide, calculateAggregates_folding.2.2.2.1 [exRecB] (by decide), by decide,
   calculateAggregates_folding.2.2.2.2.1 [exRecA, exRecB] (str "openai/gpt-5")
     ⟨2000, none⟩ (by decide)⟩

/-! ### Session-cache invariants (C5) -/

/-- The ingestion update applied to one stored record's data (the same
per-record rule the event handler applies, fed from a record). -/
def ingestRecord (s : SessionStats) (r : TokenUsageRecord) : SessionStats :=
  ingestStep s ⟨r.input_tokens, r.output_tokens, r.cache_read_tokens, r.cache_write_tokens⟩
    r.model r.cost

/-- The in-memory running token total for a session (0 when absent). -/
def sessionTotalTokens (st : HandlerState) (sid : Str) : ℕ :=
  ((lookupAssoc st.sessionStats sid).map SessionStats.totalTokens).getD 0

/-- Token total of all stored records of one session. -/
def storeSessionTokens (st : HandlerState) (sid : Str) : ℕ :=
  sumTokens (st.store.filter (fun r => r.session_id == sid))

/-- Every session's cached total is covered by the stored records. -/
def cacheBounded (st : HandlerState) : Prop :=
  ∀ sid, sessionTotalTokens st sid ≤ storeSessionTokens st sid

/-- The UUIDs the environment will generate are pairwise distinct and
distinct from every id already stored (`crypto.randomUUID`). -/
def idsFresh (st : HandlerState) (inputs : List EventInput) : Prop :=
  ((st.store.map (fun r => r.id)) ++ inputs.map (fun i => i.genId)).Nodup

theorem handleMessage_cases (cfg : PluginConfig) (st : HandlerState) (msg : Message)
    (genId nowIso : Str) (now : ℚ) (insertOk : Bool) :
    ((handleMessage cfg st msg genId nowIso now insertOk).1.store = st.store ∧
     (handleMessage cfg st msg genId nowIso now insertOk).1.sessionStats = st.sessionStats) ∨
    (UsageDatabase.hasMessage st.store msg.id = false ∧ insertOk = true ∧
     (handleMessage cfg st msg genId nowIso now insertOk).1.store =
       (UsageDatabase.insert st.store (mkRecord cfg msg genId nowIso)).2 ∧
     (handleMessage cfg st msg genId nowIso now insertOk).1.sessionStats =
       updateAssoc st.sessionStats msg.sessionID emptySessionStats
         (fun s => ingestStep s msg.tokens msg.model
           (calculateCost msg.tokens (getPricing msg.model cfg.pricing) msg.cost))) := by
  unfold handleMessage
  cases h1 : st.processedMessages.contains msg.id with
  | true =>
    rw [if_pos rfl]
    exact Or.inl ⟨rfl, rfl⟩
  | false =>
    rw [if_neg Bool.false_ne_true]
    cases h2 : UsageDatabase.hasMessage st.store msg.id with
    | true =>
      rw [if_pos rfl]
      exact Or.inl ⟨rfl, rfl⟩
    | false =>
      rw [if_neg Bool.false_ne_true]
      cases insertOk with
      | false =>
        rw [show (!false) = true from rfl, if_pos rfl]
        exact Or.inl ⟨rfl, rfl⟩
      | true =>
        rw [show (!true) = false from rfl, if_neg Bool.false_ne_true]
        refine Or.inr ⟨rfl, rfl, ?_, ?_⟩ <;> (dsimp only; split <;> rfl)

theorem ingestStep_totalTokens (s : SessionStats) (tokens : TokenCounts) (model : Str)
    (cost : Option ℚ) :
    (ingestStep s tokens model cost).totalTokens =
      s.totalTokens + (tokens.input + tokens.output + tokens.cacheRead + tokens.cacheWrite) :=
  rfl

theorem handleMessage_tokens_mono (cfg : PluginConfig) (st : HandlerState) (msg : Message)
    (genId nowIso : Str) (now : ℚ) (insertOk : Bool) (sid : Str) :
    sessionTotalTokens st sid ≤
      sessionTotalTokens (handleMessage cfg st msg genId nowIso now insertOk).1 sid := by
  rcases handleMessage_cases cfg st msg genId nowIso now insertOk with
    ⟨_, hss⟩ | ⟨_, _, _, hss⟩
  · unfold sessionTotalTokens
    rw [hss]
  · unfold sessionTotalTokens
    rw [hss, lookupAssoc_updateAssoc]
    by_cases hsid : sid = msg.sessionID
    · rw [if_pos hsid, hsid]
      cases hl : lookupAssoc st.sessionStats msg.sessionID with
      | none => exact Nat.zero_le _
      | some s =>
        show s.totalTokens ≤ (ingestStep s msg.tokens msg.model _).totalTokens
        rw [ingestStep_totalTokens]
        exact Nat.le_add_right _ _
    · rw [if_neg hsid]

theorem hasMessage_false_elim {store : Store} {mid : Str}
    (h : UsageDatabase.hasMessage store mid = false) :
    ∀ x ∈ store, (x.message_id == mid) = false := by
  intro x hx
  have := List.any_eq_false.mp h x hx
  cases hb : (x.message_id == mid) with
  | false => rfl
  | true => exact absurd hb this

theorem insert_fresh_append {store : Store} {r : TokenUsageRecord}
    (hid : ∀ x ∈ store, x.id ≠ r.id)
    (hmsg : ∀ x ∈ store, (x.message_id == r.message_id) = false) :
    (UsageDatabase.insert store r).2 = store ++ [r] := by
  have hconf : insertConflict store r = false := by
    rw [insertConflict, List.any_eq_false]
    intro x hx
    simp [beq_eq_false_iff_ne.mpr (hid x hx), hmsg x hx]
  show (if insertConflict store r = true then store else store ++ [r]) = store ++ [r]
  rw [hconf, if_neg Bool.false_ne_true]

theorem handleMessage_cacheBounded (cfg : PluginConfig) (st : HandlerState) (msg : Message)
    (genId nowIso : Str) (now : ℚ) (insertOk : Bool)
    (hfresh : ∀ r ∈ st.store, r.id ≠ genId)
    (hb : cacheBounded st) :
    cacheBounded (handleMessage cfg st msg genId nowIso now insertOk).1 := by
  rcases handleMessage_cases cfg st msg genId nowIso now insertOk with
    ⟨hst, hss⟩ | ⟨h2, _, hst, hss⟩
  · intro sid
    unfold sessionTotalTokens storeSessionTokens
    rw [hst, hss]
    exact hb sid
  · have hstore : (handleMessage cfg st msg genId nowIso now insertOk).1.store =
        st.store ++ [mkRecord cfg msg genId nowIso] := by
      rw [hst]
      exact insert_fresh_append hfresh (hasMessage_false_elim h2)
    intro sid
    unfold sessionTotalTokens storeSessionTokens
    rw [hstore, hss, List.filter_append, lookupAssoc_updateAssoc]
    by_cases hsid : sid = msg.sessionID
    · rw [if_pos hsid, hsid]
      have hfr : [mkRecord cfg msg genId nowIso].filter
          (fun r => r.session_id == msg.sessionID) = [mkRecord cfg msg genId nowIso] := by
        simp [mkRecord]
      rw [hfr, sumTokens_append]
      have hbb := hb msg.sessionID
      unfold sessionTotalTokens storeSessionTokens at hbb
      have hT : sumTokens [mkRecord cfg msg genId nowIso] =
          msg.tokens.input + msg.tokens.output + msg.tokens.cacheRead + msg.tokens.cacheWrite := by
        rw [sumTokens_cons]
        show recordTokens (mkRecord cfg msg genId nowIso) + 0 = _
        rw [Nat.add_zero]
        rfl
      rw [hT]
      cases hl : lookupAssoc st.sessionStats msg.sessionID with
      | none =>
        show ((some (ingestStep emptySessionStats msg.tokens msg.model _)).map
          SessionStats.totalTokens).getD 0 ≤ _
        rw [Option.map_some', Option.getD_some, ingestStep_totalTokens]
        show 0 + _ ≤ _
        rw [hl] at hbb
        simp only [Option.map_none', Option.getD_none] at hbb
        omega
      | some s =>
        show ((some (ingestStep s msg.tokens msg.model _)).map
          SessionStats.totalTokens).getD 0 ≤ _
        rw [Option.map_some', Option.getD_some, ingestStep_totalTokens]
        rw [hl] at hbb
        simp only [Option.map_some', Option.getD_some] at hbb
        omega
    · rw [if_neg hsid]
      have hfr : [mkRecord cfg msg genId nowIso].filter (fun r => r.session_id == sid) = [] := by
        have hne2 : ((mkRecord cfg msg genId nowIso).session_id == sid) = false :=
          beq_eq_false_iff_ne.mpr (fun h => hsid h.symm)
        simp [hne2]
      rw [hfr, List.append_nil]
      exact hb sid

theorem handleMessage_store_ids (cfg : PluginConfig) (st : HandlerState) (msg : Message)
    (genId nowIso : Str) (now : ℚ) (insertOk : Bool) :
    (handleMessage cfg st msg genId nowIso now insertOk).1.store.map (fun r => r.id) =
        st.store.map (fun r => r.id) ∨
    (handleMessage cfg st msg genId nowIso now insertOk).1.store.map (fun r => r.id) =
        st.store.map (fun r => r.id) ++ [genId] := by
  rcases handleMessage_cases cfg st msg genId nowIso now insertOk with
    ⟨hst, _⟩ | ⟨_, _, hst, _⟩
  · rw [hst]
    exact Or.inl rfl
  · have hins : (UsageDatabase.insert st.store (mkRecord cfg msg genId nowIso)).2 =
        (if insertConflict st.store (mkRecord cfg msg genId nowIso) = true
         then st.store else st.store ++ [mkRecord cfg msg genId nowIso]) := rfl
    rw [hst, hins]
    by_cases hc : insertConflict st.store (mkRecord cfg msg genId nowIso) = true
    · rw [if_pos hc]
      exact Or.inl rfl
    · rw [if_neg hc, List.map_append]
      exact Or.inr rfl

theorem runEvents_cacheBounded (cfg : PluginConfig) :
    ∀ (inputs : List EventInput) (st : HandlerState), cacheBounded st → idsFresh st inputs →
      cacheBounded (runEvents cfg st inputs)
  | [], st, hb, _ => hb
  | i :: is, st, hb, hf => by
    have hdisj := (List.nodup_append.mp hf).2.2
    have hfresh : ∀ r ∈ st.store, r.id ≠ i.genId := by
      intro r hr he
      have hmem : i.genId ∈ st.store.map (fun x => x.id) := List.mem_map.mpr ⟨r, hr, he⟩
      exact hdisj hmem (List.mem_cons_self _ _)
    have hb1 := handleMessage_cacheBounded cfg st i.msg i.genId i.nowIso i.now i.insertOk
      hfresh hb
    have hf1 : idsFresh (handleMessage cfg st i.msg i.genId i.nowIso i.now i.insertOk).1 is := by
      unfold idsFresh
      rcases handleMessage_store_ids cfg st i.msg i.genId i.nowIso i.now i.insertOk with
        hids | hids
      · rw [hids]
        refine List.Nodup.sublist ?_ hf
        exact List.Sublist.append_left (List.sublist_cons_self _ _) _
      · rw [hids, List.append_assoc]
        exact hf
    exact runEvents_cacheBounded cfg is _ hb1 hf1

/-! ### Rebuild totals and refinement (C5) -/

theorem buildStep_totalTokens_foldl (rs : List TokenUsageRecord) (init : SessionStats) :
    (rs.foldl buildStep init).totalTokens = init.totalTokens + sumTokens rs := by
  induction rs generalizing init with
  | nil => simp [sumTokens]
  | cons r rs ih =>
    rw [List.foldl_cons, ih]
    have h1 : (buildStep init r).totalTokens = init.totalTokens + recordTokens r := rfl
    rw [h1, sumTokens_cons]
    omega

theorem buildSessionStats_totalTokens (rs : List TokenUsageRecord) :
    (buildSessionStats rs).totalTokens = sumTokens rs := by
  unfold buildSessionStats
  rw [buildStep_totalTokens_foldl]
  show 0 + sumTokens rs = sumTokens rs
  omega

theorem getSessionStats_totalTokens (store : Store) (sid : Str) :
    (buildSessionStats (UsageDatabase.getSessionStats store sid)).totalTokens =
      sumTokens (store.filter (fun r => r.session_id == sid)) := by
  rw [buildSessionStats_totalTokens]
  unfold UsageDatabase.getSessionStats sumTokens
  exact List.Perm.sum_eq
    ((perm_sortByCreatedAt (store.filter (fun r => r.session_id == sid))).map recordTokens)

theorem sessionStats_ext {a b : SessionStats} (h1 : a.totalTokens = b.totalTokens)
    (h2 : a.totalCost = b.totalCost) (h3 : a.messageCount = b.messageCount)
    (h4 : a.byModel = b.byModel) : a = b := by
  cases a
  cases b
  simp only [SessionStats.mk.injEq]
  exact ⟨h1, h2, h3, h4⟩

theorem buildStep_msgCount_foldl (rs : List TokenUsageRecord) (init : SessionStats) :
    (rs.foldl buildStep init).messageCount = init.messageCount := by
  induction rs generalizing init with
  | nil => rfl
  | cons r rs ih => rw [List.foldl_cons, ih]; rfl

theorem ingestRecord_msgCount_foldl (rs : List TokenUsageRecord) (init : SessionStats) :
    (rs.foldl ingestRecord init).messageCount = init.messageCount + rs.length := by
  induction rs generalizing init with
  | nil => rfl
  | cons r rs ih =>
    rw [List.foldl_cons, ih]
    have h1 : (ingestRecord init r).messageCount = init.messageCount + 1 := rfl
    rw [h1, List.length_cons]
    omega

theorem buildStep_ingestRecord_proj (rs : List TokenUsageRecord) :
    ∀ (i j : SessionStats), i.totalTokens = j.totalTokens → i.totalCost = j.totalCost →
      i.byModel = j.byModel →
      ((rs.foldl buildStep i).totalTokens = (rs.foldl ingestRecord j).totalTokens ∧
       (rs.foldl buildStep i).totalCost = (rs.foldl ingestRecord j).totalCost ∧
       (rs.foldl buildStep i).byModel = (rs.foldl ingestRecord j).byModel) := by
  induction rs with
  | nil => exact fun i j h1 h2 h3 => ⟨h1, h2, h3⟩
  | cons r rs ih =>
    intro i j h1 h2 h3
    rw [List.foldl_cons, List.foldl_cons]
    apply ih
    · show i.totalTokens + recordTokens r = j.totalTokens + _
      rw [h1]
      rfl
    · show (match r.cost with
        | some c => i.totalCost + c
        | none => i.totalCost) = _
      rw [h2]
      rfl
    · show (buildStep i r).byModel = (ingestRecord j r).byModel
      have hb1 : (buildStep i r).byModel = updateAssoc i.byModel r.model ⟨0, 0, 0, 0, none⟩
          (fun m => ⟨m.input + r.input_tokens, m.output + r.output_tokens,
            m.cacheRead + r.cache_read_tokens, m.cacheWrite + r.cache_write_tokens,
            match r.cost with
            | some c => some (m.cost.getD 0 + c)
            | none => m.cost⟩) := rfl
      have hb2 : (ingestRecord j r).byModel = updateAssoc j.byModel r.model ⟨0, 0, 0, 0, none⟩
          (fun m => ⟨m.input + r.input_tokens, m.output + r.output_tokens,
            m.cacheRead + r.cache_read_tokens, m.cacheWrite + r.cache_write_tokens,
            match r.cost with
            | some c => some (m.cost.getD 0 + c)
            | none => m.cost⟩) := rfl
      rw [hb1, hb2, h3]

theorem buildSessionStats_eq_ingestFold (rs : List TokenUsageRecord) :
    buildSessionStats rs = rs.foldl ingestRecord emptySessionStats := by
  obtain ⟨h1, h2, h3⟩ := buildStep_ingestRecord_proj rs
    ⟨0, 0, rs.length, []⟩ emptySessionStats rfl rfl rfl
  refine sessionStats_ext h1 h2 ?_ h3
  show (List.foldl buildStep ⟨0, 0, rs.length, []⟩ rs).messageCount =
    (List.foldl ingestRecord emptySessionStats rs).messageCount
  rw [buildStep_msgCount_foldl, ingestRecord_msgCount_foldl]
  show rs.length = 0 + rs.length
  omega

/-- C5.  Session totals: (i) one handled event never decreases any
session's cached token total; (ii) rebuilding from the store's records of
a session gives exactly the sum of the four token fields over those
records; (iii) after any run of events whose generated ids are fresh,
starting from a state whose cache is covered by the store (e.g. the empty
cache after a restart), the rebuilt total is at least the in-memory
total; (iv) `buildSessionStats` is the fold of the handler's per-record
ingestion rule over the records — the rebuild path and the incremental
path apply the same aggregation rule. -/
theorem session_totals_monotone_rebuild :
    (∀ cfg st msg genId nowIso now insertOk sid,
       sessionTotalTokens st sid ≤
         sessionTotalTokens (handleMessage cfg st msg genId nowIso now insertOk).1 sid) ∧
    (∀ (store : Store) (sid : Str),
       (buildSessionStats (UsageDatabase.getSessionStats store sid)).totalTokens =
         sumTokens (store.filter (fun r => r.session_id == sid))) ∧
    (∀ cfg (st : HandlerState) (inputs : List EventInput) (sid : Str),
       cacheBounded st → idsFresh st inputs →
       sessionTotalTokens (runEvents cfg st inputs) sid ≤
         (buildSessionStats
           (UsageDatabase.getSessionStats (runEvents cfg st inputs).store sid)).totalTokens) ∧
    (∀ rs, buildSessionStats rs = rs.foldl ingestRecord emptySessionStats) := by
  refine ⟨handleMessage_tokens_mono, getSessionStats_totalTokens, ?_,
    buildSessionStats_eq_ingestFold⟩
  intro cfg st inputs sid hb hf
  rw [getSessionStats_totalTokens]
  exact runEvents_cacheBounded cfg inputs st hb hf sid

/-- A concrete event for the C5 witness. -/
def wInput : EventInput :=
  { msg := { id := str "m9", sessionID := str "s9",
             model := str "anthropic/claude-sonnet-4-5",
             tokens := ⟨10, 20, 30, 40⟩, cost := none },
    genId := str "g9", nowIso := str "2026-01-05T00:00:00.000Z",
    now := 0, insertOk := true }

/-- The empty plugin state right after startup. -/
def emptyState : HandlerState :=
  { store := [], sessionStats := [], processedMessages := [],
    lastToastTime := 0, messagesSinceToast := 0, costSinceToast := 0 }

/-- A configuration with no overrides and the toast disabled. -/
def wConfig : PluginConfig :=
  { enabled := true, machineId := str "mac1",
    toast := { enabled := false, trigger := ToastTrigger.messages,
               messagesInterval := 5, costThreshold := 1/10, timeIntervalMinutes := 10 },
    pricing := configPricing [] }

theorem session_totals_monotone_rebuild_witness :
    cacheBounded emptyState ∧ idsFresh emptyState [wInput] ∧
    sessionTotalTokens (runEvents wConfig emptyState [wInput]) (str "s9") ≤
      (buildSessionStats
        (UsageDatabase.getSessionStats (runEvents wConfig emptyState [wInput]).store
          (str "s9"))).totalTokens :=
  ⟨fun _ => Nat.le.refl, by unfold idsFresh; decide,
   session_totals_monotone_rebuild.2.2.1 wConfig emptyState [wInput] (str "s9")
     (fun _ => Nat.le.refl) (by unfold idsFresh; decide)⟩

/-! ### Range query (C6) -/

/-- C6 counterexample.  The claim calls the model filter a case-sensitive
substring match, but the query goes through SQLite `LIKE`, whose default
collation is ASCII case-insensitive: with filter `SONNET`, the query
still returns the record whose model is `anthropic/claude-sonnet-4-5`,
although `SONNET` is not a case-sensitive substring of that model. -/
theorem range_query_case_counterexample :
    (UsageDatabase.getAggregateStats [wRec1] (str "mac1")
        (str "2026-01-01T00:00:00.000Z") (str "2100-01-01T00:00:00.000Z")
        (some (str "SONNET"))).1 = [wRec1] ∧
    subMatch (str "SONNET") wRec1.model = false := by
  constructor
  · decide
  · decide

/-- Membership predicate of the corrected range query: same machine,
half-open `created_at` interval, and (when a filter is given) an
ASCII-case-insensitive substring match against the model. -/
def rangePredicate (machineId startDate endDate : Str) (modelFilter : Option Str)
    (r : TokenUsageRecord) : Bool :=
  (r.machine_id == machineId) && strLe startDate r.created_at &&
    strLt r.created_at endDate &&
    (match modelFilter with
     | none => true
     | some f => subMatch (lowered f) (lowered r.model))

/-- C6 (amended).  The range query returns exactly the stored records of
the given machine whose `created_at` lies in the half-open interval and
(when a wildcard-free filter is given) whose model contains the filter as
an ASCII-case-insensitive substring — as a permutation of the filtered
store, ordered by `created_at` ascending — together with the number of
distinct `sessionId` values among them; the spec's lower-case example
behaves as claimed: filter `sonnet` matches `anthropic/claude-sonnet-4-5`
and excludes `openai/gpt-5`. -/
theorem getAggregateStats_characterization (store : Store) (machineId s e : Str)
    (f? : Option Str) (hw : ∀ f, f? = some f → ('%' ∉ f ∧ '_' ∉ f)) :
    ((UsageDatabase.getAggregateStats store machineId s e f?).1).Perm
        (store.filter (rangePredicate machineId s e f?)) ∧
    ((UsageDatabase.getAggregateStats store machineId s e f?).1).Pairwise
        (fun a b => strLe a.created_at b.created_at = true) ∧
    (UsageDatabase.getAggregateStats store machineId s e f?).2 =
      (((UsageDatabase.getAggregateStats store machineId s e f?).1).map
        (fun r => r.session_id)).toFinset.card ∧
    likeMatches (likePattern (str "sonnet")) (str "anthropic/claude-sonnet-4-5") = true ∧
    likeMatches (likePattern (str "sonnet")) (str "openai/gpt-5") = false := by
  have hcnt : (UsageDatabase.getAggregateStats store machineId s e f?).2 =
      (((UsageDatabase.getAggregateStats store machineId s e f?).1).map
        (fun r => r.session_id)).dedup.length := rfl
  refine ⟨?_, ?_, ?_, by decide, by decide⟩
  · show (sortByCreatedAt _).Perm (store.filter (rangePredicate machineId s e f?))
    refine (perm_sortByCreatedAt _).trans ?_
    cases f? with
    | none =>
      have : store.filter (fun r => (r.machine_id == machineId) &&
          strLe s r.created_at && strLt r.created_at e) =
          store.filter (rangePredicate machineId s e none) := by
        apply List.filter_congr
        intro r _
        show _ = (_ && true)
        rw [Bool.and_true]
      rw [show (match (none : Option Str) with
        | none => store.filter (fun r => (r.machine_id == machineId) &&
            strLe s r.created_at && strLt r.created_at e)
        | some f => if f = [] then store.filter (fun r => (r.machine_id == machineId) &&
            strLe s r.created_at && strLt r.created_at e)
          else (store.filter (fun r => (r.machine_id == machineId) &&
            strLe s r.created_at && strLt r.created_at e)).filter
            (fun r => likeMatches (likePattern f) r.model)) =
        store.filter (fun r => (r.machine_id == machineId) &&
          strLe s r.created_at && strLt r.created_at e) from rfl, this]
    | some f =>
      show ((if f = [] then
          store.filter (fun r => (r.machine_id == machineId) &&
            strLe s r.created_at && strLt r.created_at e)
        else (store.filter (fun r => (r.machine_id == machineId) &&
          strLe s r.created_at && strLt r.created_at e)).filter
          (fun r => likeMatches (likePattern f) r.model))).Perm
        (store.filter (rangePredicate machineId s e (some f)))
      by_cases hf : f = []
      · rw [if_pos hf]
        subst hf
        have : store.filter (fun r => (r.machine_id == machineId) &&
            strLe s r.created_at && strLt r.created_at e) =
            store.filter (rangePredicate machineId s e (some [])) := by
          apply List.filter_congr
          intro r _
          show _ = (_ && subMatch (lowered []) (lowered r.model))
          rw [show lowered [] = [] from rfl, subMatch_nil_pat, Bool.and_true]
        rw [this]
      · rw [if_neg hf]
        rw [List.filter_filter]
        obtain ⟨hp, hu⟩ := hw f rfl
        have hcongr : store.filter (fun a => likeMatches (likePattern f) a.model &&
            ((a.machine_id == machineId) && strLe s a.created_at && strLt a.created_at e)) =
            store.filter (rangePredicate machineId s e (some f)) := by
          apply List.filter_congr
          intro r _
          show (likeMatches (likePattern f) r.model && _) =
            (_ && subMatch (lowered f) (lowered r.model))
          rw [likeMatches_likePattern hp hu, Bool.and_comm]
        rw [hcongr]
  · exact sorted_sortByCreatedAt _
  · rw [hcnt]
    exact (List.card_toFinset _).symm

theorem getAggregateStats_characterization_witness :
    (∀ f, (some (str "sonnet") : Option Str) = some f → ('%' ∉ f ∧ '_' ∉ f)) ∧
    ((UsageDatabase.getAggregateStats [wRec1, wRec2] (str "mac1")
        (str "2026-01-01T00:00:00.000Z") (str "2100-01-01T00:00:00.000Z")
        (some (str "sonnet"))).1).Perm
      (([wRec1, wRec2] : Store).filter
        (rangePredicate (str "mac1") (str "2026-01-01T00:00:00.000Z")
          (str "2100-01-01T00:00:00.000Z") (some (str "sonnet")))) := by
  have hw : ∀ f, (some (str "sonnet") : Option Str) = some f → ('%' ∉ f ∧ '_' ∉ f) := by
    intro f hf
    injection hf with hf
    subst hf
    exact ⟨by decide, by decide⟩
  exact ⟨hw, (getAggregateStats_characterization [wRec1, wRec2] (str "mac1")
    (str "2026-01-01T00:00:00.000Z") (str "2100-01-01T00:00:00.000Z")
    (some (str "sonnet")) hw).1⟩

/-! ### Write failure (C7) -/

/-- A fresh completed message used by the write-failure analysis. -/
def wMsg : Message :=
  { id := str "m1", sessionID := str "s1", model := str "anthropic/claude-sonnet-4-5",
    tokens := ⟨1000, 500, 0, 0⟩, cost := none }

/-- C7 counterexample.  The claim says a failed insert still updates the
in-memory session cache with the record's tokens; in the code the
handler returns right after surfacing the error toast, before the cache
update, so the cache still has no entry at all for the session (its
running total stays 0, not 1500). -/
theorem write_failure_counterexample :
    (handleMessage wConfig emptyState wMsg (str "g1")
        (str "2026-01-02T00:00:00.000Z") 0 false).2 = [ToastEvent.error] ∧
    (handleMessage wConfig emptyState wMsg (str "g1")
        (str "2026-01-02T00:00:00.000Z") 0 false).1.sessionStats = [] ∧
    sessionTotalTokens (handleMessage wConfig emptyState wMsg (str "g1")
        (str "2026-01-02T00:00:00.000Z") 0 false).1 (str "s1") = 0 :=
  ⟨rfl, rfl, rfl⟩

/-- C7 (amended).  When the insert of a fresh, non-duplicate record
fails, exactly one error notification is surfaced and the event is
dropped entirely: the store, the session cache, the processed set and the
toast counters are all left unchanged (the state is returned as-is), so
the live running total does NOT include the record. -/
theorem write_failure_drops_event (cfg : PluginConfig) (st : HandlerState) (msg : Message)
    (genId nowIso : Str) (now : ℚ)
    (h1 : st.processedMessages.contains msg.id = false)
    (h2 : UsageDatabase.hasMessage st.store msg.id = false) :
    handleMessage cfg st msg genId nowIso now false = (st, [ToastEvent.error]) := by
  unfold handleMessage
  rw [h1, if_neg Bool.false_ne_true, h2, if_neg Bool.false_ne_true]
  rfl

theorem write_failure_drops_event_witness :
    emptyState.processedMessages.contains wMsg.id = false ∧
    UsageDatabase.hasMessage emptyState.store wMsg.id = false ∧
    handleMessage wConfig emptyState wMsg (str "g1") (str "2026-01-02T00:00:00.000Z") 0 false =
      (emptyState, [ToastEvent.error]) :=
  ⟨rfl, rfl,
   write_failure_drops_event wConfig emptyState wMsg (str "g1")
     (str "2026-01-02T00:00:00.000Z") 0 (by decide) (by decide)⟩

/-! ### Provider derivation (C8) -/

/-- A message whose model string has no provider separator. -/
def wMsgNoSlash : Message :=
  { id := str "m2", sessionID := str "s1", model := str "gpt-5",
    tokens := ⟨1, 2, 3, 4⟩, cost := none }

/-- C8 counterexample.  The claim says the stored provider is `unknown`
when the model string has no `/`; in the code `split("/")[0]` is never
undefined, so ingesting a message with model `gpt-5` stores provider
`gpt-5`, not `unknown`. -/
theorem provider_no_separator_counterexample :
    ((handleMessage wConfig emptyState wMsgNoSlash (str "g2")
        (str "2026-01-02T00:00:00.000Z") 0 true).1.store.map (fun r => r.provider)) =
      [str "gpt-5"] ∧
    str "gpt-5" ≠ str "unknown" := by
  constructor
  · decide
  · decide

theorem takeWhile_of_not_mem : ∀ (model : Str), '/' ∉ model →
    model.takeWhile (fun x => !(x == '/')) = model
  | [], _ => rfl
  | c :: cs, h => by
    have hc : (c == '/') = false :=
      beq_eq_false_iff_ne.mpr (fun he => h (he ▸ List.mem_cons_self c cs))
    have hp : (!(c == '/')) = true := by
      rw [hc]
      rfl
    rw [List.takeWhile_cons, if_pos hp]
    have hcs : '/' ∉ cs := fun hm => h (List.mem_cons_of_mem c hm)
    rw [takeWhile_of_not_mem cs hcs]

/-- C8 (amended).  The stored provider is the prefix of the model string
before the first `/`; when the model contains no separator the provider
is the whole model string (never the literal `unknown`, unless the model
itself is `unknown`). -/
theorem providerOf_before_first_slash :
    (∀ model : Str, providerOf model = model.takeWhile (fun x => !(x == '/'))) ∧
    (∀ model : Str, '/' ∉ model → providerOf model = model) := by
  refine ⟨providerOf_eq_takeWhile, ?_⟩
  intro model h
  rw [providerOf_eq_takeWhile, takeWhile_of_not_mem model h]

theorem providerOf_before_first_slash_witness :
    ('/' ∉ str "gpt-5") ∧ providerOf (str "gpt-5") = str "gpt-5" :=
  ⟨by decide, providerOf_before_first_slash.2 (str "gpt-5") (by decide)⟩

/-! ### Notification trigger (C9) -/

theorem handleMessage_toast_shapes (cfg : PluginConfig) (st : HandlerState) (msg : Message)
    (genId nowIso : Str) (now : ℚ) (insertOk : Bool) :
    (handleMessage cfg st msg genId nowIso now insertOk).2 = [] ∨
    (handleMessage cfg st msg genId nowIso now insertOk).2 = [ToastEvent.error] ∨
    ((handleMessage cfg st msg genId nowIso now insertOk).2 = [ToastEvent.info] ∧
     (handleMessage cfg st msg genId nowIso now insertOk).1.messagesSinceToast = 0 ∧
     (handleMessage cfg st msg genId nowIso now insertOk).1.costSinceToast = 0 ∧
     (handleMessage cfg st msg genId nowIso now insertOk).1.lastToastTime = now) := by
  unfold handleMessage
  cases h1 : st.processedMessages.contains msg.id with
  | true =>
    rw [if_pos rfl]
    exact Or.inl rfl
  | false =>
    rw [if_neg Bool.false_ne_true]
    cases h2 : UsageDatabase.hasMessage st.store msg.id with
    | true =>
      rw [if_pos rfl]
      exact Or.inl rfl
    | false =>
      rw [if_neg Bool.false_ne_true]
      cases insertOk with
      | false =>
        rw [show (!false) = true from rfl, if_pos rfl]
        exact Or.inr (Or.inl rfl)
      | true =>
        rw [show (!true) = false from rfl, if_neg Bool.false_ne_true]
        dsimp only
        split
        · exact Or.inr (Or.inr ⟨rfl, rfl, rfl, rfl⟩)
        · exact Or.inl rfl

/-- C9.  A disabled toast policy never fires, whatever the counters and
clocks; and whenever the handler does surface the threshold notification
— under any of the three mutually exclusive trigger modes — all three
counters (messages-since, cost-since, last-toast-time) are reset. -/
theorem toast_trigger_policy :
    (∀ (tc : ToastConfig) (msgs : ℕ) (costv now last : ℚ), tc.enabled = false →
       shouldShowToast tc msgs costv now last = false) ∧
    (∀ cfg st msg genId nowIso now insertOk,
       (handleMessage cfg st msg genId nowIso now insertOk).2 = [ToastEvent.info] →
       (handleMessage cfg st msg genId nowIso now insertOk).1.messagesSinceToast = 0 ∧
       (handleMessage cfg st msg genId nowIso now insertOk).1.costSinceToast = 0 ∧
       (handleMessage cfg st msg genId nowIso now insertOk).1.lastToastTime = now) := by
  constructor
  · intro tc msgs costv now last h
    unfold shouldShowToast
    rw [h]
    rfl
  · intro cfg st msg genId nowIso now insertOk hfire
    rcases handleMessage_toast_shapes cfg st msg genId nowIso now insertOk with
      h | h | ⟨_, h⟩
    · rw [h] at hfire
      simp at hfire
    · rw [h] at hfire
      simp at hfire
    · exact h

/-- A configuration whose toast fires after every message. -/
def wConfigToast : PluginConfig :=
  { enabled := true, machineId := str "mac1",
    toast := { enabled := true, trigger := ToastTrigger.messages,
               messagesInterval := 1, costThreshold := 1/10, timeIntervalMinutes := 10 },
    pricing := configPricing [] }

theorem toast_trigger_policy_witness :
    wConfig.toast.enabled = false ∧
    shouldShowToast wConfig.toast 99 0 99 0 = false ∧
    (handleMessage wConfigToast emptyState wMsg (str "g1")
        (str "2026-01-02T00:00:00.000Z") 7 true).2 = [ToastEvent.info] ∧
    (handleMessage wConfigToast emptyState wMsg (str "g1")
        (str "2026-01-02T00:00:00.000Z") 7 true).1.messagesSinceToast = 0 ∧
    (handleMessage wConfigToast emptyState wMsg (str "g1")
        (str "2026-01-02T00:00:00.000Z") 7 true).1.costSinceToast = 0 ∧
    (handleMessage wConfigToast emptyState wMsg (str "g1")
        (str "2026-01-02T00:00:00.000Z") 7 true).1.lastToastTime = 7 := by
  have hfire : (handleMessage wConfigToast emptyState wMsg (str "g1")
      (str "2026-01-02T00:00:00.000Z") 7 true).2 = [ToastEvent.info] := rfl
  obtain ⟨ha, hb, hc⟩ := toast_trigger_policy.2 wConfigToast emptyState wMsg (str "g1")
    (str "2026-01-02T00:00:00.000Z") 7 true hfire
  exact ⟨rfl, toast_trigger_policy.1 wConfig.toast 99 0 99 0 rfl, hfire, ha, hb, hc⟩

/-! ### Query path frame property (C10) -/

/-- C10.  The `usage` tool's query path never writes to the session
cache: the state it returns is the input state unchanged; and when the
cache entry is missing or empty, the reported stats are rebuilt fresh
from the stored records of the session (or the empty-state message when
there are none). -/
theorem usage_query_frame :
    (∀ (st : HandlerState) (cur : Option Str) (full : Bool),
       (usageExecute st cur full).2 = st) ∧
    (∀ (st : HandlerState) (sid : Str) (full : Bool),
       (lookupAssoc st.sessionStats sid = none ∨
        ∃ s0, lookupAssoc st.sessionStats sid = some s0 ∧ s0.messageCount = 0) →
       (usageExecute st (some sid) full).1 =
         (if UsageDatabase.getSessionStats st.store sid = [] then UsageOutput.noData
          else UsageOutput.report
            (buildSessionStats (UsageDatabase.getSessionStats st.store sid)) full)) := by
  constructor
  · intro st cur full
    unfold usageExecute
    cases cur with
    | none => rfl
    | some sid =>
      dsimp only
      cases lookupAssoc st.sessionStats sid with
      | none => rfl
      | some s0 =>
        dsimp only
        split <;> rfl
  · intro st sid full h
    unfold usageExecute
    dsimp only
    rcases h with hnone | ⟨s0, hs0, hmc⟩
    · rw [hnone]
    · rw [hs0]
      dsimp only
      rw [if_pos hmc]

theorem usage_query_frame_witness :
    lookupAssoc (emptyState.sessionStats) (str "s1") = none ∧
    (usageExecute { emptyState with store := [wRec1] } (some (str "s1")) false).1 =
      (if UsageDatabase.getSessionStats ({ emptyState with store := [wRec1] }).store
          (str "s1") = [] then UsageOutput.noData
       else UsageOutput.report
         (buildSessionStats (UsageDatabase.getSessionStats
           ({ emptyState with store := [wRec1] }).store (str "s1"))) false) :=
  ⟨rfl, usage_query_frame.2 { emptyState with store := [wRec1] } (str "s1") false
    (Or.inl rfl)⟩

end UsageTracker
